import Mathlib

/-!
Shallow embedding of `src/basismixer/performance_codec.py` (basismixer
performance codec) over the rationals, together with proofs of the
specification claims.

Modelling conventions:
* numpy float64 arrays are modelled as `List ℚ`; all float arithmetic is
  exact rational arithmetic.  `np.finfo(np.float32).eps` is the rational
  `eps32 = 2⁻²³`.
* division by zero follows Lean's convention `q / 0 = 0` (numpy would
  produce `inf`/`nan`; no claim proved here depends on that corner).
* `np.argsort(kind='mergesort')` is a stable sort; it is modelled by a
  stable insertion sort on indices, which produces the same (unique)
  stably sorted permutation.
* the transcendental functions `np.log2` and `2 ** _` have no rational
  realisation; they are passed as explicit function parameters `log2`,
  `exp2` and theorems assume only the identities the real functions
  satisfy (`log2 1 = 0`, `exp2 0 = 1`, `exp2 (log2 x) = x` for `x > 0`).
* `np.std` is modelled by `stdQ`, the exact square root of the population
  variance whenever that variance is a square of a rational (every
  concrete instance used in a theorem below is of that form).
-/

/-- `np.finfo(np.float32).eps = 2⁻²³`. -/
def eps32 : ℚ := 1 / 8388608

/-- Consecutive differences, `np.diff`: `diffs [a,b,c] = [b-a, c-b]`. -/
def diffs : List ℚ → List ℚ
  | a :: b :: rest => (b - a) :: diffs (b :: rest)
  | _ => []

/-- Cumulative sums, `np.cumsum`: `cumsum [a,b,c] = [a, a+b, a+b+c]`
(the running-sum prefix scan without its leading 0). -/
def cumsum (l : List ℚ) : List ℚ :=
  (List.scanl (· + ·) 0 l).drop 1

/-- `np.min` of a list (0 on the empty list; every use below is guarded
by a non-emptiness check mirroring the numpy error on empty input). -/
def listMin : List ℚ → ℚ
  | [] => 0
  | x :: xs => xs.foldl min x

/-- `np.max` of a list (0 on the empty list, guarded as in `listMin`). -/
def listMax : List ℚ → ℚ
  | [] => 0
  | x :: xs => xs.foldl max x

/-- `np.mean` of a list (`sum / length`; 0 on the empty list, where numpy
would produce `nan`). -/
def listMean (l : List ℚ) : ℚ := l.sum / l.length

/-- Mean of the values of `vals` selected by the index list `idx`
(`vals[idx].mean()`). -/
def groupMean (vals : List ℚ) (idx : List ℕ) : ℚ :=
  ((idx.map (fun i => vals.getD i 0)).sum) / idx.length

/-- `astype(np.int)`: C-style float→int conversion truncates toward 0. -/
def truncQ (q : ℚ) : ℤ := if 0 ≤ q then ⌊q⌋ else ⌈q⌉

/-- The index comparison used by the stable argsort: compare indices
through the onset values they point at. -/
def idxLe (onsets : List ℚ) (i j : ℕ) : Prop := onsets.getD i 0 ≤ onsets.getD j 0

instance (onsets : List ℚ) : DecidableRel (idxLe onsets) := fun i j =>
  inferInstanceAs (Decidable (onsets.getD i 0 ≤ onsets.getD j 0))

/-- Stable argsort, `np.argsort(onsets, kind='mergesort')`: modelled by a
stable insertion sort of the index range (both are stable sorts, and the
stably sorted permutation of the indices is unique). -/
def argsort (onsets : List ℚ) : List ℕ :=
  List.insertionSort (idxLe onsets) (List.range onsets.length)

/-- Scan the stably sorted index list, starting a new group whenever the
gap between consecutive sorted onset values exceeds `eps`.  This models
`np.split(sort_idx, np.where(np.diff(onsets[sort_idx]) > eps)[0] + 1)`:
in particular, on an empty index list it returns one empty group, just as
`np.split` of an empty array with no split points returns `[array([])]`.
`acc` holds the current group in reverse order. -/
def splitRuns (onsets : List ℚ) (eps : ℚ) : List ℕ → List ℕ → List (List ℕ)
  | acc, [] => [acc.reverse]
  | [], i :: rest => splitRuns onsets eps [i] rest
  | j :: acc, i :: rest =>
      if onsets.getD i 0 - onsets.getD j 0 > eps
      then (j :: acc).reverse :: splitRuns onsets eps [i] rest
      else splitRuns onsets eps (i :: j :: acc) rest

/-- `get_unique_onset_idxs` (performance_codec.py:394-432): stable argsort
of the onsets followed by splitting at gaps larger than `eps` (default in
the source: `1e-6`). -/
def get_unique_onset_idxs (onsets : List ℚ) (eps : ℚ) : List (List ℕ) :=
  splitRuns onsets eps [] (argsort onsets)

/-- Result record of `get_unique_seq` (performance_codec.py:435-465). -/
structure USeqInfo where
  u_onset : List ℚ
  total_dur : ℚ
  unique_onset_idxs : List (List ℕ)
  diff_u_onset : List ℚ
deriving Repr, DecidableEq

/-- `get_unique_seq` (performance_codec.py:435-465).  Returns `none` on an
empty onset list, where the source's `np.min(onsets)` raises.  The
`diff_u_onset` field is always filled (the source computes it only when
`return_diff` is set, with the same value). -/
def get_unique_seq (onsets offsets : List ℚ)
    (uIdxs : Option (List (List ℕ))) : Option USeqInfo :=
  if onsets.isEmpty then none
  else
    let first_time := listMin onsets
    let last_time := max (listMax onsets + eps32) (listMax offsets)
    let unique_onset_idxs := uIdxs.getD (get_unique_onset_idxs onsets (1/1000000))
    let u_onset := unique_onset_idxs.map (fun uix => groupMean onsets uix) ++ [last_time]
    some ⟨u_onset, last_time - first_time, unique_onset_idxs, diffs u_onset⟩

/-- The per-step finite-difference quotients `diff(s[mask])/diff(deltas[mask])`
of a masked point list.  Each point pairs a value (`s`, first component)
with its delta (`deltas`, second component). -/
def stepQuot (pts : List (ℚ × ℚ)) : List ℚ :=
  List.zipWith (fun p q => (q.1 - p.1) / (q.2 - p.2)) pts pts.tail

/-- `_is_monotonic` (performance_codec.py:468-491): a kept sequence of
fewer than 4 points is trivially monotonic; otherwise all finite
difference quotients must be `> 0` (strict) resp. `≥ 0`. -/
def is_monotonic (strict : Bool) (pts : List (ℚ × ℚ)) : Bool :=
  if pts.length < 4 then true
  else if strict then (stepQuot pts).all (fun r => decide (0 < r))
  else (stepQuot pts).all (fun r => decide (0 ≤ r))

/-- First index of the minimum of a rational list (`np.argmin`). -/
def argminIdx : List ℚ → ℕ
  | [] => 0
  | [_] => 0
  | x :: y :: rest =>
      let j := argminIdx (y :: rest)
      if x ≤ (y :: rest).getD j 0 then 0 else j + 1

/-- `_select_problematic` (performance_codec.py:536-563): the kept
position whose removal most reduces non-monotonicity, namely
`argmin(diffs[1:] * diffs[:-1]) + 1` over the finite-difference
quotients.  The source then maps this kept position back to a global
index with `np.where(mask)[0][problematic]`; in the kept-list
representation used here the kept position is the index itself. -/
def select_problematic (pts : List (ℚ × ℚ)) : ℕ :=
  let ds := stepQuot pts
  argminIdx (List.zipWith (· * ·) ds.tail ds) + 1

theorem argminIdx_lt_length (l : List ℚ) (h : l ≠ []) : argminIdx l < l.length := by
  induction l with
  | nil => simp at h
  | cons x xs ih =>
    cases xs with
    | nil => simp [argminIdx]
    | cons y rest =>
      rw [argminIdx]
      split
      · simp
      · have := ih (by simp)
        simpa [Nat.succ_lt_succ_iff] using this

theorem select_problematic_lt (pts : List (ℚ × ℚ)) (h : 4 ≤ pts.length) :
    select_problematic pts < pts.length - 1 ∧ 0 < select_problematic pts := by
  refine ⟨?_, by simp [select_problematic]⟩
  have hds : (stepQuot pts).length = pts.length - 1 := by
    simp [stepQuot, List.length_zipWith, List.length_tail]
  have hprod : (List.zipWith (· * ·) (stepQuot pts).tail (stepQuot pts)).length
      = pts.length - 2 := by
    simp [List.length_zipWith, List.length_tail, hds]
    omega
  have hne : List.zipWith (· * ·) (stepQuot pts).tail (stepQuot pts) ≠ [] := by
    intro hcon
    have := congrArg List.length hcon
    rw [hprod] at this
    simp at this
    omega
  have := argminIdx_lt_length _ hne
  rw [hprod] at this
  simp only [select_problematic]
  omega

/-- `_monotonize_times` (performance_codec.py:566-582), in the kept-list
representation: while the kept points are not monotonic, remove the
problematic kept point (always an interior one) and recurse.  The numpy
boolean mask over the padded arrays is represented by the list of kept
`(value, delta)` points; clearing `mask[p]` is `eraseIdx` at the
corresponding kept position. -/
def monotonize_times_rec (strict : Bool) (pts : List (ℚ × ℚ)) : List (ℚ × ℚ) :=
  if h : is_monotonic strict pts then pts
  else
    have h4 : 4 ≤ pts.length := by
      by_contra hc
      exact h (by simp [is_monotonic, Nat.lt_of_not_le hc])
    have hlt := (select_problematic_lt pts h4).1
    have : (pts.eraseIdx (select_problematic pts)).length < pts.length := by
      rw [List.length_eraseIdx_of_lt (by omega)]
      omega
    monotonize_times_rec strict (pts.eraseIdx (select_problematic pts))
termination_by pts.length

/-- `monotonize_times` (performance_codec.py:494-533): pad both sequences
with `min - eps` / `max + eps` sentinels, run the recursive monotonizer,
then drop the sentinels (the source clears `mask[0]` and `mask[-1]`,
which are never removed by the recursion since the problematic index is
always interior; in the kept-list representation this is dropping the
first and last kept points).  Returns `(s[mask], deltas[mask])`. -/
def monotonize_times (s : List ℚ) (strict : Bool) (deltas : List ℚ) :
    List ℚ × List ℚ :=
  let eps : ℚ := if strict then eps32 else 1/1000
  let sPad := (listMin s - eps) :: s ++ [listMax s + eps]
  let dPad := (listMin deltas - eps) :: deltas ++ [listMax deltas + eps]
  let kept := monotonize_times_rec strict (sPad.zip dPad)
  let inner := kept.drop 1 |>.dropLast
  (inner.map Prod.fst, inner.map Prod.snd)

/-- Piecewise-linear evaluation over knot/value pairs assumed sorted by
knot.  On a segment `[x0, x1]` with `x ≤ x1` the value is
`y0 + (x - x0) * (y1 - y0) / (x1 - x0)`; past the last knot, the last
value (only reached through `interp1d`, which handles out-of-range
queries through its fill values first). -/
def interpSeg : List (ℚ × ℚ) → ℚ → ℚ
  | [], _ => 0
  | [(_, y0)], _ => y0
  | (x0, y0) :: (x1, y1) :: rest, x =>
      if x ≤ x1 then y0 + (x - x0) * (y1 - y0) / (x1 - x0)
      else interpSeg ((x1, y1) :: rest) x

/-- `scipy.interpolate.interp1d(xs, ys, kind='linear', bounds_error=False,
fill_value=(lo, hi))` evaluated at `x`.  scipy first sorts the knots
(`assume_sorted=False` is the default), fills with `lo` below the first
knot and `hi` above the last, and interpolates linearly in between. -/
def interp1d (xs ys : List ℚ) (lo hi : ℚ) (x : ℚ) : ℚ :=
  let pts := List.insertionSort (fun p q : ℚ × ℚ => p.1 ≤ q.1) (xs.zip ys)
  match pts with
  | [] => 0
  | (x0, _) :: _ =>
      if x < x0 then lo
      else if x > (pts.getLastD (0, 0)).1 then hi
      else interpSeg pts x

/-- `tempo_by_average` (performance_codec.py:142-237) with the group
indices passed explicitly (`some uIdxs`) or recomputed from the score
onsets quantised to `int(1e4 * onset)` (`none`, the source default).
Returns `none` where the source raises: on empty inputs, and when the
monotonised sequence leaves fewer than two beat-period samples
(`interp1d` requires at least 2 entries; `beat_period[0]` on an empty
array raises as well). -/
def tempo_by_average (score_onsets performed_onsets
    score_durations performed_durations : List ℚ)
    (uIdxsOpt : Option (List (List ℕ))) :
    Option (List ℚ × List ℚ × List (List ℕ)) := do
  let uIdxs := uIdxsOpt.getD
    (get_unique_onset_idxs
      (score_onsets.map (fun x => ((truncQ (10000 * x) : ℤ) : ℚ))) (1/1000000))
  let score_info ← get_unique_seq score_onsets
    (List.zipWith (· + ·) score_onsets score_durations) (some uIdxs)
  let perf_info ← get_unique_seq performed_onsets
    (List.zipWith (· + ·) performed_onsets performed_durations) (some uIdxs)
  let unique_s_onsets := score_info.u_onset
  let eq_onsets := perf_info.u_onset
  let (eq_onset_mt, unique_s_onsets_mt) := monotonize_times eq_onsets true unique_s_onsets
  let beat_period := List.zipWith (· / ·) (diffs eq_onset_mt) (diffs unique_s_onsets_mt)
  if beat_period.length < 2 then none
  else
    let input_onsets := unique_s_onsets.dropLast
    let tempo_curve := input_onsets.map
      (interp1d unique_s_onsets_mt.dropLast beat_period
        (beat_period.headD 0) (beat_period.getLastD 0))
    some (tempo_curve, input_onsets, uIdxs)

/-- `encode_articulation` (performance_codec.py:107-127).  Starts from a
zero array; for each onset group with beat period `bp`, writes
`log2(pd / (bp * sd))` at each member index, substituting `sd → 1`,
`pd → bp` for grace notes (`sd = 0`).  The source performs the
substitution on fancy-indexed copies `sd = score_durations[idx]`,
`pd = performed_durations[idx]`, so the caller's arrays are untouched;
here the substitution is per-element.  `log2` abstracts `np.log2`. -/
def encode_articulation (log2 : ℚ → ℚ)
    (score_durations performed_durations : List ℚ)
    (unique_onset_idxs : List (List ℕ)) (beat_period : List ℚ) : List ℚ :=
  (unique_onset_idxs.zip beat_period).foldl
    (fun acc (g : List ℕ × ℚ) =>
      g.1.foldl (fun (acc2 : List ℚ) j =>
        let sd := score_durations.getD j 0
        let pd := performed_durations.getD j 0
        let sd2 := if sd = 0 then 1 else sd
        let pd2 := if sd = 0 then g.2 else pd
        acc2.set j (log2 (pd2 / (g.2 * sd2)))) acc)
    (List.replicate score_durations.length (0 : ℚ))

/-- `decode_articulation` (performance_codec.py:130-139):
`dur = 2 ** articulation * score_duration * beat_period`, elementwise
over a group slice.  `exp2` abstracts `2 ** _`. -/
def decode_articulation (exp2 : ℚ → ℚ)
    (score_durations articulation_parameter : List ℚ) (beat_period : ℚ) : List ℚ :=
  List.zipWith (fun sd a => exp2 a * sd * beat_period)
    score_durations articulation_parameter

/-- Exact rational square root: `ratSqrt q = r` with `r ≥ 0`, `r * r = q`
whenever such a rational exists, else 0.  Models `np.sqrt` (hence
`np.std`) exactly on perfect-square rationals; every theorem below that
mentions `stdQ` evaluates it only at such values. -/
def ratSqrt (q : ℚ) : ℚ :=
  if q < 0 then 0
  else
    let n := Nat.sqrt q.num.toNat
    let d := Nat.sqrt q.den
    if n * n = q.num.toNat ∧ d * d = q.den then (n : ℚ) / (d : ℚ) else 0

/-- Population variance (`np.var`, the square of `np.std`). -/
def varQ (l : List ℚ) : ℚ := listMean (l.map (fun v => (v - listMean l) ^ 2))

/-- `np.std`, exact on lists whose population variance is a rational
square (see `ratSqrt`). -/
def stdQ (l : List ℚ) : ℚ := ratSqrt (varQ l)

/-- A tempo normalization scheme (performance_codec.py:338-391): a
forward transform of the tempo curve and an inverse taking the mean beat
period plus any extra positional side parameters (the Python `*args`). -/
structure TempoNormalization where
  name : String
  normalize_tempo : List ℚ → List ℚ
  rescale_tempo : List ℚ → ℚ → List ℚ → List ℚ

/-- The identity scheme `TempoNormalization` (performance_codec.py:338-347),
the default configuration (`normalization=None` in `TimeCodec.__init__`). -/
def defaultTempoNormalization : TempoNormalization :=
  ⟨"beat_period", fun tempo_curve => tempo_curve, fun tempo_param _ _ => tempo_param⟩

/-- `StandardTempoNormalization` (performance_codec.py:361-369):
forward `(tc - mean(tc)) / std(tc)`; inverse
`tempo_param * std_bp + mean_beat_period`, where `std_bp` is an extra
side parameter the caller of `decode` must supply (the head of the
`*args` list here). -/
def StandardTempoNormalization : TempoNormalization :=
  ⟨"standardized_bp",
   fun tempo_curve => tempo_curve.map (fun v => (v - listMean tempo_curve) / stdQ tempo_curve),
   fun tempo_param mean_beat_period extra =>
     tempo_param.map (fun v => v * extra.headD 0 + mean_beat_period)⟩

/-- Output of `TimeCodec._encode` (performance_codec.py:659-694): the
per-note parameter rows `(tempo, timing, log_articulation)`, the scalar
mean beat period, and the onset groups.  The mean beat period is the
ONLY scalar side output of encode, for every normalization scheme. -/
structure EncodeOut where
  parameters : List (ℚ × ℚ × ℚ)
  mean_beat_period : ℚ
  unique_onset_idxs : List (List ℕ)
deriving Repr, DecidableEq

/-- The parameter-assignment loop of `TimeCodec._encode`
(performance_codec.py:684-689): rows start as zeros with column 2 already
holding the articulation; then for each group `i` and member `j`,
`rows[j] := (tempo_param[i], eq_onsets[i] - performed_onsets[j], articulation[j])`. -/
def assignTimeParams (n : ℕ) (uIdxs : List (List ℕ))
    (tempo_param eq_onsets performed_onsets articulation : List ℚ) :
    List (ℚ × ℚ × ℚ) :=
  (List.range uIdxs.length).foldl (fun rows i =>
    (uIdxs.getD i []).foldl (fun rows j =>
      rows.set j (tempo_param.getD i 0,
                  eq_onsets.getD i 0 - performed_onsets.getD j 0,
                  articulation.getD j 0)) rows)
    ((List.range n).map (fun j => ((0:ℚ), (0:ℚ), articulation.getD j 0)))

/-- `TimeCodec._encode` (performance_codec.py:659-694) for the
`tempo_by_average` estimator.  `none` where the estimator raises. -/
def TimeCodec.encodeInner (norm : TempoNormalization) (log2 : ℚ → ℚ)
    (score_onsets performed_onsets score_durations performed_durations : List ℚ) :
    Option EncodeOut := do
  let (beat_period, s_onsets, unique_onset_idxs) ←
    tempo_by_average score_onsets performed_onsets score_durations
      performed_durations none
  let eq_onsets :=
    (cumsum ((0:ℚ) :: List.zipWith (· * ·) beat_period.dropLast (diffs s_onsets))).map
      (· + groupMean performed_onsets (unique_onset_idxs.headD []))
  let tempo_param := norm.normalize_tempo beat_period
  let articulation_param := encode_articulation log2
    score_durations performed_durations unique_onset_idxs beat_period
  some ⟨assignTimeParams score_onsets.length unique_onset_idxs
          tempo_param eq_onsets performed_onsets articulation_param,
        listMean beat_period, unique_onset_idxs⟩

/-- `TimeCodec.encode` (performance_codec.py:640-657): the shape check
`score_onsets.shape != performed_onsets.shape` raises a `ValueError`
before anything is computed from the arrays; the degenerate cases in
which the estimator itself raises are a distinct error. -/
def TimeCodec.encode (norm : TempoNormalization) (log2 : ℚ → ℚ)
    (score_onsets performed_onsets score_durations performed_durations : List ℚ) :
    Except String EncodeOut :=
  if score_onsets.length ≠ performed_onsets.length then
    Except.error "The performance and the score should be of the same size"
  else
    match TimeCodec.encodeInner norm log2 score_onsets performed_onsets
        score_durations performed_durations with
    | some r => Except.ok r
    | none => Except.error "degenerate input"

/-- The decoding loop of `TimeCodec.decode`
(performance_codec.py:722-731): `performance[j] := (eq_onset[i] -
parameters[j].timing, 2 ** parameters[j].articulation *
score_durations[j] * beat_period[i])` for each group `i` and member `j`
(the duration is `decode_articulation` applied pointwise to the group
slice). -/
def assignDecode (n : ℕ) (uIdxs : List (List ℕ)) (eq_onset : List ℚ)
    (parameters : List (ℚ × ℚ × ℚ)) (beat_period score_durations : List ℚ)
    (exp2 : ℚ → ℚ) : List (ℚ × ℚ) :=
  (List.range uIdxs.length).foldl (fun rows i =>
    (uIdxs.getD i []).foldl (fun rows j =>
      rows.set j (eq_onset.getD i 0 - (parameters.getD j (0, 0, 0)).2.1,
                  exp2 (parameters.getD j (0, 0, 0)).2.2 *
                    score_durations.getD j 0 * beat_period.getD i 0)) rows)
    (List.replicate n ((0:ℚ), (0:ℚ)))

/-- `TimeCodec.decode` (performance_codec.py:696-735): regroup from the
score alone, average the tempo parameter per group, invert the
normalization with the supplied mean beat period (and extra positional
side parameters), cumulative-sum to equivalent onsets, decode onsets and
durations, and shift so the minimum onset is 0.  `none` on an empty
score, where the source raises. -/
def TimeCodec.decode (norm : TempoNormalization) (exp2 : ℚ → ℚ)
    (score_onsets score_durations : List ℚ) (parameters : List (ℚ × ℚ × ℚ))
    (mean_beat_period : ℚ) (extra : List ℚ) : Option (List (ℚ × ℚ)) := do
  let score_info ← get_unique_seq score_onsets
    (List.zipWith (· + ·) score_onsets score_durations) none
  let unique_onset_idxs := score_info.unique_onset_idxs
  let time_param := unique_onset_idxs.map
    (fun uix => groupMean (parameters.map (·.1)) uix)
  let beat_period := norm.rescale_tempo time_param mean_beat_period extra
  let ioi_perf := List.zipWith (· * ·) score_info.diff_u_onset beat_period
  let eq_onset := cumsum ((0:ℚ) :: ioi_perf)
  let performance := assignDecode score_onsets.length unique_onset_idxs
    eq_onset parameters beat_period score_durations exp2
  let m := listMin (performance.map Prod.fst)
  some (performance.map (fun p => (p.1 - m, p.2)))

/-- `np.round`: round half to even (banker's rounding). -/
def roundHalfEven (q : ℚ) : ℤ :=
  let f := ⌊q⌋
  let r := q - f
  if r < 1/2 then f else if 1/2 < r then f + 1 else if 2 ∣ f then f else f + 1

/-- `NotewiseDynamicsCodec.encode` (performance_codec.py:595-597):
`velocities / 127`. -/
def NotewiseDynamicsCodec.encode (velocities : List ℚ) : List ℚ :=
  velocities.map (· / 127)

/-- `NotewiseDynamicsCodec.decode` (performance_codec.py:599-604): if
`max(parameters) <= 1` the inputs are treated as normalized and scaled by
127 before rounding, else rounded as they are. -/
def NotewiseDynamicsCodec.decode (parameters : List ℚ) : List ℚ :=
  if listMax parameters ≤ 1 then
    parameters.map (fun p => (roundHalfEven (p * 127) : ℚ))
  else
    parameters.map (fun p => (roundHalfEven p : ℚ))

/-- Modelled from the spec: `clip` is imported from `basismixer.utils`,
which is not among the sources.  Spec §4.6: decode must "clip intensity
to [1,127] and pitch to [1,127]", i.e. `clip(x, lo, hi) = min(hi,
max(lo, x))` applied in place, so the decoded output carries the clipped
values. -/
def clip {α : Type} [LinearOrder α] (x lo hi : α) : α := min hi (max lo x)

/-- A decoded performed note (one row of the structured array built in
`PerformanceCodec.decode`, performance_codec.py:90-98). -/
structure PerfNote where
  pitch : ℤ
  onset : ℚ
  duration : ℚ
  velocity : ℤ
  p_onset : ℚ
  p_duration : ℚ
deriving Repr, DecidableEq

/-- Row assembly of `PerformanceCodec.decode` (performance_codec.py:90-98):
`zip(score, velocities, onsets_durations)` truncates to the shortest
input; the velocity is cast to `i4` after clipping (`truncQ`, exact here
since rounded velocities are integers). -/
def assembleRows : List (ℤ × ℚ × ℚ) → List ℚ → List (ℚ × ℚ) → List PerfNote
  | n :: ns, v :: vs, od :: ods =>
      ⟨clip n.1 1 127, n.2.1, n.2.2, truncQ v, od.1, od.2⟩ :: assembleRows ns vs ods
  | _, _, _ => []

/-- `PerformanceCodec.decode` (performance_codec.py:65-104) with the
`NotewiseDynamicsCodec` (one dynamics column) and a `TimeCodec`: clip the
score pitches, split the parameter matrix into its dynamics column and
time columns, decode both, clip the velocities, and assemble the
performed-note rows.  A score row is `(pitch, onset, duration)`; a
parameter row is `(velocity_param, tempo, timing, articulation)`. -/
def PerformanceCodec.decode (norm : TempoNormalization) (exp2 : ℚ → ℚ)
    (score : List (ℤ × ℚ × ℚ)) (parameters : List (ℚ × ℚ × ℚ × ℚ))
    (mean_beat_period : ℚ) (extra : List ℚ) : Option (List PerfNote) := do
  let time_params := parameters.map (fun r => (r.2.1, r.2.2.1, r.2.2.2))
  let onsets_durations ← TimeCodec.decode norm exp2 (score.map (·.2.1))
    (score.map (·.2.2)) time_params mean_beat_period extra
  let velocities := (NotewiseDynamicsCodec.decode (parameters.map (·.1))).map
    (fun v => clip v 1 127)
  some (assembleRows score velocities onsets_durations)

/-! ## Helper lemmas about the monotonizer -/

theorem monotonize_times_rec_eq (strict : Bool) (pts : List (ℚ × ℚ)) :
    monotonize_times_rec strict pts =
      if is_monotonic strict pts then pts
      else monotonize_times_rec strict (pts.eraseIdx (select_problematic pts)) := by
  by_cases h : is_monotonic strict pts
  · rw [monotonize_times_rec]
    simp [h]
  · rw [monotonize_times_rec]
    simp [h]

theorem is_monotonic_of_short (strict : Bool) (pts : List (ℚ × ℚ))
    (h : pts.length < 4) : is_monotonic strict pts = true := by
  simp [is_monotonic, h]

theorem monotonize_times_rec_isMonoAux (strict : Bool) (n : ℕ) :
    ∀ (pts : List (ℚ × ℚ)), pts.length ≤ n →
      is_monotonic strict (monotonize_times_rec strict pts) = true := by
  induction n with
  | zero =>
    intro pts h
    have h0 : pts.length < 4 := by omega
    rw [monotonize_times_rec_eq, if_pos (is_monotonic_of_short strict pts h0)]
    exact is_monotonic_of_short strict pts h0
  | succ n ih =>
    intro pts h
    by_cases hm : is_monotonic strict pts
    · rw [monotonize_times_rec_eq, if_pos hm]
      exact hm
    · have h4 : 4 ≤ pts.length := by
        by_contra hc
        exact hm (is_monotonic_of_short strict pts (by omega))
      have hsel := (select_problematic_lt pts h4).1
      rw [monotonize_times_rec_eq, if_neg hm]
      apply ih
      rw [List.length_eraseIdx_of_lt (by omega)]
      omega

theorem monotonize_times_rec_isMono (strict : Bool) (pts : List (ℚ × ℚ)) :
    is_monotonic strict (monotonize_times_rec strict pts) = true :=
  monotonize_times_rec_isMonoAux strict pts.length pts le_rfl

theorem monotonize_times_rec_sublistAux (strict : Bool) (n : ℕ) :
    ∀ (pts : List (ℚ × ℚ)), pts.length ≤ n →
      List.Sublist (monotonize_times_rec strict pts) pts := by
  induction n with
  | zero =>
    intro pts h
    have h0 : pts.length < 4 := by omega
    rw [monotonize_times_rec_eq, if_pos (is_monotonic_of_short strict pts h0)]
  | succ n ih =>
    intro pts h
    by_cases hm : is_monotonic strict pts
    · rw [monotonize_times_rec_eq, if_pos hm]
    · have h4 : 4 ≤ pts.length := by
        by_contra hc
        exact hm (is_monotonic_of_short strict pts (by omega))
      have hsel := (select_problematic_lt pts h4).1
      rw [monotonize_times_rec_eq, if_neg hm]
      refine List.Sublist.trans ?_ (List.eraseIdx_sublist pts (select_problematic pts))
      apply ih
      rw [List.length_eraseIdx_of_lt (by omega)]
      omega

theorem monotonize_times_rec_sublist (strict : Bool) (pts : List (ℚ × ℚ)) :
    List.Sublist (monotonize_times_rec strict pts) pts :=
  monotonize_times_rec_sublistAux strict pts.length pts le_rfl

theorem zip_fst_snd (l : List (ℚ × ℚ)) : (l.map Prod.fst).zip (l.map Prod.snd) = l := by
  induction l with
  | nil => rfl
  | cons p rest ih => simp [ih]

theorem stepQuot_cons (a b : ℚ × ℚ) (rest : List (ℚ × ℚ)) :
    stepQuot (a :: b :: rest) = (b.1 - a.1) / (b.2 - a.2) :: stepQuot (b :: rest) := rfl

theorem stepQuot_drop_one (l : List (ℚ × ℚ)) :
    stepQuot (l.drop 1) = (stepQuot l).drop 1 := by
  match l with
  | [] => rfl
  | [a] => rfl
  | a :: b :: rest => simp [stepQuot_cons]

theorem stepQuot_dropLast (l : List (ℚ × ℚ)) :
    stepQuot l.dropLast = (stepQuot l).dropLast := by
  match l with
  | [] => rfl
  | [a] => rfl
  | [a, b] => rfl
  | a :: b :: c :: rest =>
    have ih := stepQuot_dropLast (b :: c :: rest)
    simp only [List.dropLast_cons₂, stepQuot_cons] at ih ⊢
    rw [ih]

theorem is_monotonic_strict_pos (pts : List (ℚ × ℚ)) (h4 : 4 ≤ pts.length)
    (h : is_monotonic true pts = true) : ∀ r ∈ stepQuot pts, 0 < r := by
  intro r hr
  simp only [is_monotonic, if_neg (by omega : ¬ pts.length < 4), if_pos rfl] at h
  simpa using List.all_eq_true.mp (by simpa using h) r hr

/-- The inner (sentinel-stripped) kept list of `monotonize_times`; the
two returned sequences are its two component projections. -/
def monotonizeInner (s : List ℚ) (strict : Bool) (deltas : List ℚ) : List (ℚ × ℚ) :=
  let eps : ℚ := if strict then eps32 else 1/1000
  let sPad := (listMin s - eps) :: s ++ [listMax s + eps]
  let dPad := (listMin deltas - eps) :: deltas ++ [listMax deltas + eps]
  (monotonize_times_rec strict (sPad.zip dPad)).drop 1 |>.dropLast

theorem monotonize_times_eq_inner (s : List ℚ) (strict : Bool) (deltas : List ℚ) :
    monotonize_times s strict deltas =
      ((monotonizeInner s strict deltas).map Prod.fst,
       (monotonizeInner s strict deltas).map Prod.snd) := rfl

theorem monotonizeInner_quot_pos (s : List ℚ) (deltas : List ℚ)
    (r : ℚ) (hr : r ∈ stepQuot (monotonizeInner s true deltas)) : 0 < r := by
  set pts := ((listMin s - eps32) :: s ++ [listMax s + eps32]).zip
    ((listMin deltas - eps32) :: deltas ++ [listMax deltas + eps32]) with hpts
  have hkept : monotonizeInner s true deltas
      = ((monotonize_times_rec true pts).drop 1).dropLast := by
    simp [monotonizeInner, hpts]
  set kept := monotonize_times_rec true pts with hk
  have hmono := monotonize_times_rec_isMono true pts
  rw [hkept] at hr
  rw [stepQuot_dropLast, stepQuot_drop_one] at hr
  have hmem : r ∈ stepQuot kept :=
    List.mem_of_mem_drop (List.mem_of_mem_dropLast hr)
  by_cases h4 : 4 ≤ kept.length
  · exact is_monotonic_strict_pos kept h4 (hk ▸ hmono) r hmem
  · -- kept shorter than 4: its inner part has at most one point, no quotients
    exfalso
    have hlen : (stepQuot kept).length = kept.length - 1 := by
      simp [stepQuot, List.length_zipWith, List.length_tail]
    have : ((stepQuot kept).drop 1).dropLast.length = 0 := by
      simp [List.length_dropLast, List.length_drop, hlen]
      omega
    rw [List.length_eq_zero] at this
    rw [this] at hr
    exact List.not_mem_nil r hr

theorem is_monotonic_nonstrict_nonneg (pts : List (ℚ × ℚ)) (h4 : 4 ≤ pts.length)
    (h : is_monotonic false pts = true) : ∀ r ∈ stepQuot pts, 0 ≤ r := by
  intro r hr
  have h2 : ∀ x ∈ stepQuot pts, 0 ≤ x := by
    simpa [is_monotonic, if_neg (by omega : ¬ pts.length < 4)] using h
  exact h2 r hr

theorem monotonizeInner_quot_nonneg (s : List ℚ) (deltas : List ℚ)
    (r : ℚ) (hr : r ∈ stepQuot (monotonizeInner s false deltas)) : 0 ≤ r := by
  set pts := ((listMin s - 1/1000) :: s ++ [listMax s + 1/1000]).zip
    ((listMin deltas - 1/1000) :: deltas ++ [listMax deltas + 1/1000]) with hpts
  have hkept : monotonizeInner s false deltas
      = ((monotonize_times_rec false pts).drop 1).dropLast := by
    simp [monotonizeInner, hpts]
  set kept := monotonize_times_rec false pts with hk
  have hmono := monotonize_times_rec_isMono false pts
  rw [hkept] at hr
  rw [stepQuot_dropLast, stepQuot_drop_one] at hr
  have hmem : r ∈ stepQuot kept :=
    List.mem_of_mem_drop (List.mem_of_mem_dropLast hr)
  by_cases h4 : 4 ≤ kept.length
  · exact is_monotonic_nonstrict_nonneg kept h4 (hk ▸ hmono) r hmem
  · exfalso
    have hlen : (stepQuot kept).length = kept.length - 1 := by
      simp [stepQuot, List.length_zipWith, List.length_tail]
    have : ((stepQuot kept).drop 1).dropLast.length = 0 := by
      simp [List.length_dropLast, List.length_drop, hlen]
      omega
    rw [List.length_eq_zero] at this
    rw [this] at hr
    exact List.not_mem_nil r hr

theorem monotonizeInner_sublist (s : List ℚ) (strict : Bool) (deltas : List ℚ) :
    List.Sublist (monotonizeInner s strict deltas)
      (((listMin s - (if strict then eps32 else 1/1000)) :: s
          ++ [listMax s + (if strict then eps32 else 1/1000)]).zip
       ((listMin deltas - (if strict then eps32 else 1/1000)) :: deltas
          ++ [listMax deltas + (if strict then eps32 else 1/1000)])) := by
  refine List.Sublist.trans ?_ (monotonize_times_rec_sublist strict _)
  exact List.Sublist.trans (List.dropLast_sublist _) (List.drop_sublist 1 _)

/-! ## Claim theorems: monotonizer (C3, C5) and shape check (C6) -/

/-- C5: the monotonization recursion terminates on every input and
reaches a fixed point of the removal process: the result of
`monotonize_times_rec` satisfies `is_monotonic` (so one more unfolding
returns it unchanged, fourth conjunct); a kept list of fewer than 4
points is returned immediately; and whenever the kept list is not
monotonic, the step removes exactly one point, which is an interior one
(`0 < p` and `p + 1 < length`). -/
theorem C5_monotonize_terminates (strict : Bool) (pts : List (ℚ × ℚ)) :
    is_monotonic strict (monotonize_times_rec strict pts) = true ∧
    (pts.length < 4 → monotonize_times_rec strict pts = pts) ∧
    (is_monotonic strict pts = false →
      (pts.eraseIdx (select_problematic pts)).length + 1 = pts.length ∧
      0 < select_problematic pts ∧ select_problematic pts + 1 < pts.length) ∧
    monotonize_times_rec strict (monotonize_times_rec strict pts)
      = monotonize_times_rec strict pts := by
  refine ⟨monotonize_times_rec_isMono strict pts, ?_, ?_, ?_⟩
  · intro h
    rw [monotonize_times_rec_eq, if_pos (is_monotonic_of_short strict pts h)]
  · intro h
    have h4 : 4 ≤ pts.length := by
      by_contra hc
      rw [is_monotonic_of_short strict pts (by omega)] at h
      cases h
    have hsel := select_problematic_lt pts h4
    refine ⟨?_, hsel.2, by omega⟩
    rw [List.length_eraseIdx_of_lt (by omega)]
    omega
  · rw [monotonize_times_rec_eq strict (monotonize_times_rec strict pts),
      if_pos (monotonize_times_rec_isMono strict pts)]

/-- C3: for every input pair `(values, deltas)` and strictness flag, the
pair returned by `monotonize_times` is monotonic with respect to the
requested strictness (all finite-difference quotients
`diff(values)/diff(deltas)` strictly positive when strict, non-negative
otherwise) and is a sub-sequence of the sentinel-padded input, so its
length is at most the input length plus 2. -/
theorem C3_monotonizer_correct (s deltas : List ℚ) (strict : Bool) :
    (strict = true →
      ∀ r ∈ stepQuot ((monotonize_times s strict deltas).1.zip
        (monotonize_times s strict deltas).2), 0 < r) ∧
    (strict = false →
      ∀ r ∈ stepQuot ((monotonize_times s strict deltas).1.zip
        (monotonize_times s strict deltas).2), 0 ≤ r) ∧
    List.Sublist
      ((monotonize_times s strict deltas).1.zip (monotonize_times s strict deltas).2)
      (((listMin s - (if strict then eps32 else 1/1000)) :: s
          ++ [listMax s + (if strict then eps32 else 1/1000)]).zip
       ((listMin deltas - (if strict then eps32 else 1/1000)) :: deltas
          ++ [listMax deltas + (if strict then eps32 else 1/1000)])) ∧
    (monotonize_times s strict deltas).1.length ≤ s.length + 2 := by
  have hz : (monotonize_times s strict deltas).1.zip (monotonize_times s strict deltas).2
      = monotonizeInner s strict deltas := by
    rw [monotonize_times_eq_inner]
    exact zip_fst_snd _
  refine ⟨?_, ?_, ?_, ?_⟩
  · intro hs r hr
    rw [hz] at hr
    rw [hs] at hr
    exact monotonizeInner_quot_pos s deltas r hr
  · intro hs r hr
    rw [hz] at hr
    rw [hs] at hr
    exact monotonizeInner_quot_nonneg s deltas r hr
  · rw [hz]
    exact monotonizeInner_sublist s strict deltas
  · have h1 : (monotonize_times s strict deltas).1.length
        = (monotonizeInner s strict deltas).length := by
      rw [monotonize_times_eq_inner]
      simp
    have h2 := (monotonizeInner_sublist s strict deltas).length_le
    rw [List.length_zip] at h2
    simp at h2
    omega

/-- Witness for C3: the strict and non-strict implications discharged at
the concrete input `s = [0, 2, 1]`, `deltas = [0, 1, 2]`. -/
theorem C3_monotonizer_correct_witness :
    (∀ r ∈ stepQuot ((monotonize_times [0, 2, 1] true [0, 1, 2]).1.zip
      (monotonize_times [0, 2, 1] true [0, 1, 2]).2), 0 < r) ∧
    (∀ r ∈ stepQuot ((monotonize_times [0, 2, 1] false [0, 1, 2]).1.zip
      (monotonize_times [0, 2, 1] false [0, 1, 2]).2), 0 ≤ r) ∧
    (monotonize_times [0, 2, 1] true [0, 1, 2]).1.length ≤ 5 :=
  ⟨(C3_monotonizer_correct [0, 2, 1] [0, 1, 2] true).1 rfl,
   (C3_monotonizer_correct [0, 2, 1] [0, 1, 2] false).2.1 rfl,
   (C3_monotonizer_correct [0, 2, 1] [0, 1, 2] true).2.2.2⟩

/-- C6: for score and performance onset arrays of differing length,
`TimeCodec.encode` fails with the shape-mismatch error before any
computation on the arrays (the check is the first statement of `encode`),
and no result is produced on that path. -/
theorem C6_shape_mismatch (norm : TempoNormalization) (log2 : ℚ → ℚ)
    (score_onsets performed_onsets score_durations performed_durations : List ℚ)
    (h : score_onsets.length ≠ performed_onsets.length) :
    TimeCodec.encode norm log2 score_onsets performed_onsets
        score_durations performed_durations
      = Except.error "The performance and the score should be of the same size" := by
  simp [TimeCodec.encode, h]

/-- Witness for C6 at a concrete mismatched input (one score note, no
performed notes). -/
theorem C6_shape_mismatch_witness :
    TimeCodec.encode defaultTempoNormalization (fun x => x - 1) [0] [] [1] []
      = Except.error "The performance and the score should be of the same size" :=
  C6_shape_mismatch defaultTempoNormalization (fun x => x - 1) [0] [] [1] []
    (by decide)

/-- Witness for C5: the short-circuit discharged at a 3-point kept list,
and the single-interior-point-removal conjunct discharged at a concrete
non-monotonic 4-point kept list. -/
theorem C5_monotonize_terminates_witness :
    monotonize_times_rec true [((0:ℚ), (0:ℚ)), (2, 1), (1, 2)]
        = [((0:ℚ), (0:ℚ)), (2, 1), (1, 2)] ∧
    ([((0:ℚ), (0:ℚ)), (2, 1), (1, 2), (3, 3)].eraseIdx
        (select_problematic [((0:ℚ), (0:ℚ)), (2, 1), (1, 2), (3, 3)])).length + 1 = 4 ∧
    0 < select_problematic [((0:ℚ), (0:ℚ)), (2, 1), (1, 2), (3, 3)] := by
  have hm : is_monotonic true [((0:ℚ), (0:ℚ)), (2, 1), (1, 2), (3, 3)] = false := by
    norm_num [is_monotonic, stepQuot]
  refine ⟨(C5_monotonize_terminates true _).2.1 (by decide), ?_, ?_⟩
  · exact ((C5_monotonize_terminates true _).2.2.1 hm).1
  · exact ((C5_monotonize_terminates true _).2.2.1 hm).2.1

/-! ## Helper lemmas about the articulation write loops (C2) -/

theorem foldl_set_length (f : ℕ → ℚ) (idx : List ℕ) (acc : List ℚ) :
    (idx.foldl (fun a j => a.set j (f j)) acc).length = acc.length := by
  induction idx generalizing acc with
  | nil => rfl
  | cons j rest ih => simp [ih]

theorem foldl_set_getD (f : ℕ → ℚ) (idx : List ℕ) (acc : List ℚ) (t : ℕ)
    (ht : t < acc.length) :
    (idx.foldl (fun a j => a.set j (f j)) acc).getD t 0
      = if t ∈ idx then f t else acc.getD t 0 := by
  induction idx generalizing acc with
  | nil => simp
  | cons j rest ih =>
    rw [List.foldl_cons, ih (acc.set j (f j)) (by simpa using ht)]
    by_cases hmem : t ∈ rest
    · simp [hmem]
    · by_cases hj : t = j
      · subst hj
        simp [hmem, List.getD_eq_getElem?_getD, List.getElem?_set_self ht]
      · simp [hmem, hj, List.getD_eq_getElem?_getD,
          List.getElem?_set_ne (fun hc => hj hc.symm)]

theorem foldl_groups_length (F : ℚ → ℕ → ℚ) (gs : List (List ℕ × ℚ)) (acc : List ℚ) :
    (gs.foldl (fun a p => p.1.foldl (fun a2 j => a2.set j (F p.2 j)) a) acc).length
      = acc.length := by
  induction gs generalizing acc with
  | nil => rfl
  | cons p rest ih => rw [List.foldl_cons, ih, foldl_set_length]

theorem foldl_groups_untouched (F : ℚ → ℕ → ℚ) (gs : List (List ℕ × ℚ))
    (acc : List ℚ) (t : ℕ) (ht : t < acc.length) (hnot : ∀ p ∈ gs, t ∉ p.1) :
    (gs.foldl (fun a p => p.1.foldl (fun a2 j => a2.set j (F p.2 j)) a) acc).getD t 0
      = acc.getD t 0 := by
  induction gs generalizing acc with
  | nil => rfl
  | cons p rest ih =>
    rw [List.foldl_cons, ih _ (by rw [foldl_set_length]; exact ht)
      (fun q hq => hnot q (List.mem_cons_of_mem p hq)),
      foldl_set_getD _ _ _ _ ht, if_neg (hnot p (List.mem_cons_self p rest))]

/-! ## Claim C2: grace-note articulation -/

/-- C2 (amended): a note with score duration 0 (a grace note) receives
log-articulation exactly 0 from the encoder (its ratio is substituted to
`bp / (bp * 1) = 1` and `log2 1 = 0`); but decoding an articulation
parameter of 0 for such a note yields performed duration
`2^0 * 0 * beat_period = 0` — the score duration 0 forces duration 0,
not the beat period claimed by the spec.  The group containing the note
is described by the split `uIdxs.zip bps = pre ++ (G, bp) :: suf`; the
note belongs to `G` and to no other group (groups partition the index
set). -/
theorem C2_grace_articulation (log2 : ℚ → ℚ) (hlog : log2 1 = 0)
    (sds pds : List ℚ) (uIdxs : List (List ℕ)) (bps : List ℚ)
    (pre suf : List (List ℕ × ℚ)) (G : List ℕ) (bp : ℚ)
    (hsplit : uIdxs.zip bps = pre ++ (G, bp) :: suf)
    (j : ℕ) (hj : j ∈ G) (hpre : ∀ p ∈ pre, j ∉ p.1) (hsuf : ∀ p ∈ suf, j ∉ p.1)
    (hlen : j < sds.length) (hgrace : sds.getD j 0 = 0) (hbp : bp ≠ 0) :
    (encode_articulation log2 sds pds uIdxs bps).getD j 0 = 0 ∧
    (∀ (exp2 : ℚ → ℚ) (bp2 : ℚ), decode_articulation exp2 [0] [0] bp2 = [0]) := by
  constructor
  · have hF : ∀ (acc : List ℚ) (p : List ℕ × ℚ),
        (fun (a : List ℚ) (g : List ℕ × ℚ) =>
          g.1.foldl (fun (acc2 : List ℚ) j =>
            acc2.set j (log2 ((if sds.getD j 0 = 0 then g.2 else pds.getD j 0) /
              (g.2 * (if sds.getD j 0 = 0 then 1 else sds.getD j 0))))) a) acc p
        = p.1.foldl (fun (a2 : List ℚ) j =>
            a2.set j ((fun (b : ℚ) (j : ℕ) =>
              log2 ((if sds.getD j 0 = 0 then b else pds.getD j 0) /
                (b * (if sds.getD j 0 = 0 then 1 else sds.getD j 0)))) p.2 j)) acc := by
      intro acc p
      rfl
    have hunfold : encode_articulation log2 sds pds uIdxs bps
        = (uIdxs.zip bps).foldl (fun (a : List ℚ) (p : List ℕ × ℚ) =>
            p.1.foldl (fun (a2 : List ℚ) j =>
              a2.set j ((fun (b : ℚ) (j : ℕ) =>
                log2 ((if sds.getD j 0 = 0 then b else pds.getD j 0) /
                  (b * (if sds.getD j 0 = 0 then 1 else sds.getD j 0)))) p.2 j)) a)
            (List.replicate sds.length (0 : ℚ)) := rfl
    rw [hunfold, hsplit, List.foldl_append, List.foldl_cons]
    set F : ℚ → ℕ → ℚ := fun (b : ℚ) (j : ℕ) =>
      log2 ((if sds.getD j 0 = 0 then b else pds.getD j 0) /
        (b * (if sds.getD j 0 = 0 then 1 else sds.getD j 0))) with hFdef
    have hlenpre : (pre.foldl (fun (a : List ℚ) (p : List ℕ × ℚ) =>
        p.1.foldl (fun (a2 : List ℚ) j => a2.set j (F p.2 j)) a)
        (List.replicate sds.length (0 : ℚ))).length = sds.length := by
      rw [foldl_groups_length]
      simp
    rw [foldl_groups_untouched F suf _ j
      (by rw [foldl_set_length]; omega) hsuf]
    rw [foldl_set_getD _ _ _ _ (by omega), if_pos hj]
    have hg2 : sds[j]?.getD 0 = 0 := by
      simpa [List.getD_eq_getElem?_getD] using hgrace
    simp [hFdef, hg2, div_self hbp, hlog]
  · intro exp2 bp2
    simp [decode_articulation]

/-- Counterexample for C2 as stated: the claim predicts that decoding
articulation 0 for a grace note (score duration 0) yields the group's
beat period (here `1/2`); `decode_articulation` actually yields
`2^0 * 0 * (1/2) = 0`.  The function `fun x => x + 1` agrees with
`2 ** _` at the only evaluation point used (`exp2 0 = 1`). -/
theorem C2_grace_articulation_cex :
    decode_articulation (fun x => x + 1) [0] [0] (1/2) = [0] ∧
    ((fun (x : ℚ) => x + 1) 0 = 1) ∧ (0 : ℚ) ≠ 1/2 := by
  refine ⟨?_, by norm_num, by norm_num⟩
  norm_num [decode_articulation]

/-- Witness for C2 at a concrete input: two singleton groups with beat
periods `[2, 1]`; note 0 is a grace note (score duration 0). -/
theorem C2_grace_articulation_witness :
    (encode_articulation (fun x => x - 1) [0, 1] [3, 1] [[0], [1]] [2, 1]).getD 0 0 = 0 ∧
    decode_articulation (fun x => x + 1) [0] [0] (5 : ℚ) = [0] := by
  have h := C2_grace_articulation (fun x => x - 1) (by norm_num)
    [0, 1] [3, 1] [[0], [1]] [2, 1] [] [([1], 1)] [0] 2 rfl 0
    (by decide) (by simp) (by simp) (by decide) rfl (by norm_num)
  exact ⟨h.1, h.2 (fun x => x + 1) 5⟩

/-! ## Helper lemmas about the onset grouper (C9, later reused for C1) -/

theorem splitRuns_flatten (onsets : List ℚ) (eps : ℚ) :
    ∀ (l acc : List ℕ), (splitRuns onsets eps acc l).flatten = acc.reverse ++ l := by
  intro l
  induction l with
  | nil =>
    intro acc
    simp [splitRuns]
  | cons i rest ih =>
    intro acc
    match acc with
    | [] =>
      rw [splitRuns, ih [i]]
      simp
    | j :: acc2 =>
      rw [splitRuns]
      by_cases hgap : onsets.getD i 0 - onsets.getD j 0 > eps
      · rw [if_pos hgap]
        simp only [List.flatten_cons, ih [i]]
        simp
      · rw [if_neg hgap, ih (i :: j :: acc2)]
        simp

theorem splitRuns_ne_nil (onsets : List ℚ) (eps : ℚ) :
    ∀ (l acc : List ℕ), acc ≠ [] → ∀ g ∈ splitRuns onsets eps acc l, g ≠ [] := by
  intro l
  induction l with
  | nil =>
    intro acc hacc g hg
    rw [splitRuns] at hg
    simp only [List.mem_singleton] at hg
    subst hg
    simpa using hacc
  | cons i rest ih =>
    intro acc hacc g hg
    match acc with
    | [] => exact absurd rfl hacc
    | j :: acc2 =>
      rw [splitRuns] at hg
      by_cases hgap : onsets.getD i 0 - onsets.getD j 0 > eps
      · rw [if_pos hgap] at hg
        rcases List.mem_cons.mp hg with h | h
        · subst h
          simp
        · exact ih [i] (by simp) g h
      · rw [if_neg hgap] at hg
        exact ih (i :: j :: acc2) (by simp) g hg

theorem splitRuns_singleton (onsets : List ℚ) (eps : ℚ) :
    ∀ (l : List ℕ) (j : ℕ),
      List.Chain' (fun a b => eps < onsets.getD b 0 - onsets.getD a 0) (j :: l) →
      splitRuns onsets eps [j] l = [j] :: l.map (fun i => [i]) := by
  intro l
  induction l with
  | nil =>
    intro j _
    rw [splitRuns]
    rfl
  | cons i rest ih =>
    intro j hchain
    rw [splitRuns, if_pos (by simpa using (List.chain'_cons.mp hchain).1)]
    rw [ih i (List.chain'_cons.mp hchain).2]
    rfl

theorem argsort_perm (onsets : List ℚ) :
    List.Perm (argsort onsets) (List.range onsets.length) :=
  List.perm_insertionSort (idxLe onsets) (List.range onsets.length)

theorem argsort_of_sorted (onsets : List ℚ) (h : onsets.Sorted (· ≤ ·)) :
    argsort onsets = List.range onsets.length := by
  apply List.Sorted.insertionSort_eq
  rw [List.Sorted, List.pairwise_iff_getElem]
  intro a b ha hb hab
  simp only [List.length_range] at ha hb
  simp only [List.getElem_range]
  have := List.pairwise_iff_getElem.mp h a b (by simpa using ha) (by simpa using hb) hab
  simp only [idxLe, List.getD_eq_getElem?_getD]
  rw [List.getElem?_eq_getElem (by simpa using ha),
    List.getElem?_eq_getElem (by simpa using hb)]
  simpa using this

theorem get_unique_onset_idxs_flatten (onsets : List ℚ) (eps : ℚ) :
    (get_unique_onset_idxs onsets eps).flatten = argsort onsets := by
  rw [get_unique_onset_idxs, splitRuns_flatten]
  rfl

/-! ## Claim C9: grouping partition (amended to non-empty input) -/

/-- C9 (amended): for every NON-EMPTY onset array, the groups returned by
`get_unique_onset_idxs` are non-empty, pairwise disjoint, and their union
is the full index set `{0, …, n-1}`; and for an already-sorted onset
array whose consecutive gaps all exceed the grouping epsilon, every group
is a singleton.  (On the empty array the source returns one empty group,
see the counterexample.) -/
theorem C9_grouping_partition (onsets : List ℚ) (eps : ℚ) (hne : onsets ≠ []) :
    (∀ g ∈ get_unique_onset_idxs onsets eps, g ≠ []) ∧
    List.Pairwise List.Disjoint (get_unique_onset_idxs onsets eps) ∧
    (∀ k : ℕ, (∃ g ∈ get_unique_onset_idxs onsets eps, k ∈ g) ↔ k < onsets.length) ∧
    (onsets.Sorted (· ≤ ·) →
      List.Chain' (fun a b => eps < b - a) onsets →
      ∀ g ∈ get_unique_onset_idxs onsets eps, ∃ j, g = [j]) := by
  have hflat := get_unique_onset_idxs_flatten onsets eps
  have hperm := argsort_perm onsets
  refine ⟨?_, ?_, ?_, ?_⟩
  · -- non-emptiness of every group
    intro g hg
    rw [get_unique_onset_idxs] at hg
    match hsort : argsort onsets with
    | [] =>
      exfalso
      have := hperm.length_eq
      rw [hsort] at this
      simp only [List.length_nil, List.length_range] at this
      exact hne (List.length_eq_zero.mp this.symm)
    | i :: rest =>
      rw [hsort, splitRuns] at hg
      exact splitRuns_ne_nil onsets eps rest [i] (by simp) g hg
  · -- pairwise disjointness, from nodup-ness of the flattened groups
    have hnodup : (get_unique_onset_idxs onsets eps).flatten.Nodup := by
      rw [hflat]
      exact hperm.nodup_iff.mpr (List.nodup_range onsets.length)
    exact (List.nodup_flatten.mp hnodup).2
  · -- the union of the groups is the full index set
    intro k
    rw [← List.mem_flatten, hflat, hperm.mem_iff, List.mem_range]
  · -- sorted well-separated arrays: every group is a singleton
    intro hsorted hgaps g hg
    rw [get_unique_onset_idxs, argsort_of_sorted onsets hsorted] at hg
    match hlen : onsets.length with
    | 0 => exact absurd (List.length_eq_zero.mp hlen) hne
    | n + 1 =>
      rw [hlen, List.range_succ_eq_map] at hg
      rw [splitRuns, splitRuns_singleton] at hg
      · rcases List.mem_cons.mp hg with h | h
        · exact ⟨0, h⟩
        · rcases List.mem_map.mp h with ⟨i, _, hi⟩
          exact ⟨i, hi.symm⟩
      · -- the gap condition along the index list 0 :: map (+1) (range n)
        rw [← List.range_succ_eq_map]
        have hchain : List.Chain' (fun a b => eps < b - a) onsets := hgaps
        rw [List.chain'_iff_get] at hchain
        have hgetD : ∀ m, m < n → eps <
            onsets.getD (m + 1) 0 - onsets.getD m 0 := by
          intro m hm
          have h1 := hchain m (by omega)
          simp only [List.getD_eq_getElem?_getD]
          rw [List.getElem?_eq_getElem (by omega), List.getElem?_eq_getElem (by omega)]
          simpa [List.get_eq_getElem] using h1
        rw [List.chain'_range_succ]
        exact hgetD

/-- Counterexample for C9 as stated: on the empty onset array the grouper
returns ONE EMPTY GROUP (mirroring `np.split` of an empty array with no
split indices, which returns `[array([])]`), so "the groups are
non-empty" fails for the empty array. -/
theorem C9_grouping_partition_cex :
    get_unique_onset_idxs [] (1/1000000) = [[]] ∧
    ¬ (∀ g ∈ get_unique_onset_idxs [] (1/1000000), g ≠ []) := by
  constructor
  · rfl
  · intro h
    exact h [] (by rw [show get_unique_onset_idxs [] (1/1000000) = [[]] from rfl]; simp) rfl

/-- Witness for C9 at the concrete sorted, well-separated onset array
`[0, 1]` with the default epsilon `1e-6`. -/
theorem C9_grouping_partition_witness :
    (∀ g ∈ get_unique_onset_idxs [0, 1] (1/1000000), g ≠ []) ∧
    (∀ k : ℕ, (∃ g ∈ get_unique_onset_idxs [0, 1] (1/1000000), k ∈ g) ↔ k < 2) ∧
    (∀ g ∈ get_unique_onset_idxs [0, 1] (1/1000000), ∃ j, g = [j]) := by
  have h := C9_grouping_partition [0, 1] (1/1000000) (by simp)
  exact ⟨h.1, h.2.2.1, h.2.2.2 (by norm_num [List.Sorted]) (by norm_num)⟩

/-! ## Helper lemmas about linear interpolation (C4) -/

theorem stepQuot_eq_diffs (l : List (ℚ × ℚ)) :
    List.zipWith (· / ·) (diffs (l.map Prod.fst)) (diffs (l.map Prod.snd))
      = stepQuot l := by
  induction l with
  | nil => rfl
  | cons p rest ih =>
    match rest with
    | [] => rfl
    | q :: rest2 =>
      simp only [List.map_cons] at ih ⊢
      rw [diffs, diffs, List.zipWith_cons_cons, stepQuot_cons, ih]

theorem interpSeg_pos : ∀ (pts : List (ℚ × ℚ)) (x : ℚ),
    pts ≠ [] →
    List.Chain' (fun p q : ℚ × ℚ => p.1 ≤ q.1) pts →
    (∀ p ∈ pts, 0 < p.2) →
    ((pts.headD (0, 0)).1 ≤ x) →
    0 < interpSeg pts x := by
  intro pts
  induction pts with
  | nil => intro x h; exact absurd rfl h
  | cons p rest ih =>
    intro x _ hchain hpos hx
    match rest with
    | [] =>
      exact hpos p (List.mem_cons_self p [])
    | q :: rest2 =>
      rw [show interpSeg (p :: q :: rest2) x
          = if x ≤ q.1 then p.2 + (x - p.1) * (q.2 - p.2) / (q.1 - p.1)
            else interpSeg (q :: rest2) x from rfl]
      have hchain2 := List.chain'_cons.mp hchain
      have hp2 : 0 < p.2 := hpos p (List.mem_cons_self _ _)
      have hq2 : 0 < q.2 := hpos q (List.mem_cons.mpr (Or.inr (List.mem_cons_self _ _)))
      by_cases hle : x ≤ q.1
      · rw [if_pos hle]
        have hx0 : p.1 ≤ x := hx
        by_cases hd : p.1 = q.1
        · have hxp : x = p.1 := le_antisymm (hd ▸ hle) hx0
          rw [hxp]
          simpa using hp2
        · have hdlt : p.1 < q.1 := lt_of_le_of_ne hchain2.1 hd
          have hne0 : q.1 - p.1 ≠ 0 := sub_ne_zero.mpr (fun hc => hd hc.symm)
          have hform : p.2 + (x - p.1) * (q.2 - p.2) / (q.1 - p.1)
              = ((q.1 - x) * p.2 + (x - p.1) * q.2) / (q.1 - p.1) := by
            field_simp
            ring
          rw [hform]
          apply div_pos ?_ (by linarith)
          by_cases hxp : x = p.1
          · rw [hxp]
            have : (q.1 - p.1) * p.2 > 0 := mul_pos (by linarith) hp2
            nlinarith
          · have hxgt : p.1 < x := lt_of_le_of_ne hx0 (fun hc => hxp hc.symm)
            have h1 : 0 ≤ (q.1 - x) * p.2 := mul_nonneg (by linarith) hp2.le
            have h2 : 0 < (x - p.1) * q.2 := mul_pos (by linarith) hq2
            linarith
      · rw [if_neg hle]
        exact ih x (by simp) hchain2.2
          (fun r hr => hpos r (List.mem_cons_of_mem p hr))
          (le_of_lt (lt_of_not_le hle))

theorem interp1d_pos (xs ys : List ℚ) (lo hi x : ℚ)
    (hys : ∀ y ∈ ys, 0 < y) (hlo : 0 < lo) (hhi : 0 < hi)
    (hne : xs.zip ys ≠ []) : 0 < interp1d xs ys lo hi x := by
  haveI : IsTotal (ℚ × ℚ) (fun p q : ℚ × ℚ => p.1 ≤ q.1) :=
    ⟨fun a b => le_total a.1 b.1⟩
  haveI : IsTrans (ℚ × ℚ) (fun p q : ℚ × ℚ => p.1 ≤ q.1) :=
    ⟨fun a b c hab hbc => le_trans hab hbc⟩
  have hperm := List.perm_insertionSort (fun p q : ℚ × ℚ => p.1 ≤ q.1) (xs.zip ys)
  have hsorted := List.sorted_insertionSort (fun p q : ℚ × ℚ => p.1 ≤ q.1) (xs.zip ys)
  have hpos : ∀ p ∈ List.insertionSort (fun p q : ℚ × ℚ => p.1 ≤ q.1) (xs.zip ys), 0 < p.2 := by
    intro p hp
    have hmem := hperm.mem_iff.mp hp
    have hmem2 : (p.1, p.2) ∈ xs.zip ys := by simpa using hmem
    exact hys p.2 (List.of_mem_zip hmem2).2
  have hchain : List.Chain' (fun p q : ℚ × ℚ => p.1 ≤ q.1)
      (List.insertionSort (fun p q : ℚ × ℚ => p.1 ≤ q.1) (xs.zip ys)) :=
    List.Pairwise.chain' hsorted
  rw [interp1d]
  cases hcase : List.insertionSort (fun p q : ℚ × ℚ => p.1 ≤ q.1) (xs.zip ys) with
  | nil =>
    exfalso
    apply hne
    have h0 := hperm.symm
    rw [hcase] at h0
    exact List.Perm.eq_nil h0
  | cons p0 rest =>
    simp only [hcase]
    by_cases h1 : x < p0.1
    · rw [if_pos h1]
      exact hlo
    · rw [if_neg h1]
      by_cases h2 : x > ((p0 :: rest).getLastD (0, 0)).1
      · rw [if_pos h2]
        exact hhi
      · rw [if_neg h2]
        exact interpSeg_pos (p0 :: rest) x (by simp) (hcase ▸ hchain)
          (hcase ▸ hpos) (le_of_not_lt h1)

theorem diffs_length : ∀ (l : List ℚ), (diffs l).length = l.length - 1
  | [] => rfl
  | [_] => rfl
  | a :: b :: rest => by
    rw [show diffs (a :: b :: rest) = (b - a) :: diffs (b :: rest) from rfl]
    have := diffs_length (b :: rest)
    simp only [List.length_cons] at this ⊢
    omega

theorem headD_mem (l : List ℚ) (h : l ≠ []) : l.headD 0 ∈ l := by
  cases l with
  | nil => exact absurd rfl h
  | cons x xs => simp

theorem getLastD_mem_any : ∀ (l : List ℚ) (d : ℚ), l ≠ [] → l.getLastD d ∈ l := by
  intro l
  induction l with
  | nil => intro d h; exact absurd rfl h
  | cons a rest ih =>
    intro d _
    rw [List.getLastD_cons]
    cases rest with
    | nil => simp
    | cons b rest2 => exact List.mem_cons_of_mem a (ih a (by simp))

/-! ## Claim C4: tempo positivity -/

/-- C4: for every grouped score/performance input whose onset groups are
non-empty and whose performed group mean onsets are pairwise distinct,
every value of the tempo curve produced by `tempo_by_average` is
strictly positive (and, being a rational produced by total operations,
finite).  In this exact model the conclusion holds for every grouped
input on which the estimator succeeds: the strict monotonizer only
retains points whose finite-difference quotients (the beat periods) are
strictly positive, and linear interpolation of positive values with
positive boundary fills is positive. -/
theorem C4_tempo_positivity (so po sd pd : List ℚ) (uIdxs : List (List ℕ))
    (hgroups : ∀ g ∈ uIdxs, g ≠ [])
    (hdistinct : (uIdxs.map (fun g => groupMean po g)).Pairwise (· ≠ ·))
    (tc io : List ℚ) (u : List (List ℕ))
    (h : tempo_by_average so po sd pd (some uIdxs) = some (tc, io, u)) :
    ∀ v ∈ tc, 0 < v := by
  rw [tempo_by_average] at h
  simp only [Option.getD_some] at h
  cases hs : get_unique_seq so (List.zipWith (· + ·) so sd) (some uIdxs) with
  | none =>
    rw [hs] at h
    simp at h
  | some sInfo =>
  cases hp : get_unique_seq po (List.zipWith (· + ·) po pd) (some uIdxs) with
  | none =>
    rw [hs, hp] at h
    simp at h
  | some pInfo =>
  rw [hs, hp] at h
  simp only [Option.pure_def, Option.bind_eq_bind, Option.some_bind] at h
  set mt := monotonize_times pInfo.u_onset true sInfo.u_onset with hmt
  set bp := List.zipWith (· / ·) (diffs mt.1) (diffs mt.2) with hbp
  by_cases hlen : bp.length < 2
  · rw [if_pos hlen] at h
    cases h
  · rw [if_neg hlen] at h
    simp only [Option.some.injEq, Prod.mk.injEq] at h
    have hbp2 : bp = stepQuot (monotonizeInner pInfo.u_onset true sInfo.u_onset) := by
      rw [hbp, hmt, monotonize_times_eq_inner]
      exact stepQuot_eq_diffs _
    have hpos : ∀ b ∈ bp, 0 < b := by
      intro b hb
      exact monotonizeInner_quot_pos pInfo.u_onset sInfo.u_onset b (hbp2 ▸ hb)
    have hbpne : bp ≠ [] := by
      intro hc
      rw [hc] at hlen
      simp at hlen
    intro v hv
    rw [← h.1] at hv
    rcases List.mem_map.mp hv with ⟨x, _, hx⟩
    rw [← hx]
    apply interp1d_pos
    · exact hpos
    · exact hpos _ (headD_mem bp hbpne)
    · exact hpos _ (getLastD_mem_any bp 0 hbpne)
    · -- the knot/value pair list is non-empty
      intro hc
      have hlz := congrArg List.length hc
      rw [List.length_zip] at hlz
      simp only [List.length_nil] at hlz
      have hd1 : (diffs mt.1).length = mt.1.length - 1 := diffs_length _
      have hd2 : (diffs mt.2).length = mt.2.length - 1 := diffs_length _
      have hbl : bp.length = min (mt.1.length - 1) (mt.2.length - 1) := by
        rw [hbp, List.length_zipWith, hd1, hd2]
      have hkl : mt.2.dropLast.length = mt.2.length - 1 := List.length_dropLast _
      omega

/-- Witness for C4 at a concrete grouped input (two singleton groups,
constant beat period 1/2): the estimator succeeds and every tempo-curve
value is positive. -/
theorem C4_tempo_positivity_witness :
    tempo_by_average [0, 1] [0, 1/2] [1, 1] [1/2, 1/2] (some [[0], [1]])
        = some ([1/2, 1/2], [0, 1], [[0], [1]]) ∧
    ∀ v ∈ ([1/2, 1/2] : List ℚ), 0 < v := by
  have hs : get_unique_seq [0, 1] (List.zipWith (· + ·) [0, 1] [1, 1]) (some [[0], [1]])
      = some ⟨[0, 1, 2], 2, [[0], [1]], [1, 1]⟩ := by
    norm_num [get_unique_seq, groupMean, listMax, listMin, eps32, diffs, max_def]
  have hp : get_unique_seq [0, 1/2] (List.zipWith (· + ·) [0, 1/2] [1/2, 1/2]) (some [[0], [1]])
      = some ⟨[0, 1/2, 1], 1, [[0], [1]], [1/2, 1/2]⟩ := by
    norm_num [get_unique_seq, groupMean, listMax, listMin, eps32, diffs, max_def]
  have hmono : is_monotonic true
      [((-(1/8388608) : ℚ), (-(1/8388608) : ℚ)), (0 : ℚ × ℚ), (1/2, 1), (1, 2),
        (8388609/8388608, 16777217/8388608)] = true := by
    norm_num [is_monotonic, stepQuot]
  have hrec := monotonize_times_rec_eq true
    [((-(1/8388608) : ℚ), (-(1/8388608) : ℚ)), (0 : ℚ × ℚ), (1/2, 1), (1, 2),
      (8388609/8388608, 16777217/8388608)]
  rw [if_pos hmono] at hrec
  have hmt : monotonize_times [0, 1/2, 1] true [0, 1, 2] = ([0, 1/2, 1], [0, 1, 2]) := by
    norm_num [monotonize_times, listMin, listMax, eps32, min_def, max_def, hrec]
  have heval : tempo_by_average [0, 1] [0, 1/2] [1, 1] [1/2, 1/2] (some [[0], [1]])
      = some ([1/2, 1/2], [0, 1], [[0], [1]]) := by
    rw [tempo_by_average]
    simp only [Option.getD_some]
    rw [hs, hp]
    simp only [Option.pure_def, Option.bind_eq_bind, Option.some_bind]
    norm_num [hmt, diffs, interp1d, interpSeg, List.insertionSort, List.orderedInsert]
  refine ⟨heval, ?_⟩
  exact C4_tempo_positivity [0, 1] [0, 1/2] [1, 1] [1/2, 1/2] [[0], [1]]
    (by decide) (by norm_num [groupMean, List.pairwise_cons])
    [1/2, 1/2] [0, 1] [[0], [1]] heval

/-! ## Claim C7: decode clipping -/

theorem clip_bounds_int (x : ℤ) : 1 ≤ clip x 1 127 ∧ clip x 1 127 ≤ 127 :=
  ⟨le_min (by norm_num) (le_max_left 1 x), min_le_left 127 (max 1 x)⟩

theorem clip_bounds_rat (x : ℚ) : 1 ≤ clip x 1 127 ∧ clip x 1 127 ≤ 127 :=
  ⟨le_min (by norm_num) (le_max_left 1 x), min_le_left 127 (max 1 x)⟩

theorem truncQ_bounds (v : ℚ) (h1 : 1 ≤ v) (h2 : v ≤ 127) :
    1 ≤ truncQ v ∧ truncQ v ≤ 127 := by
  rw [truncQ, if_pos (by linarith)]
  constructor
  · have := Int.floor_le_floor (α := ℚ) h1
    simpa using this
  · have := Int.floor_le_floor (α := ℚ) h2
    simpa using this

theorem assembleRows_bounds : ∀ (ns : List (ℤ × ℚ × ℚ)) (vs : List ℚ)
    (ods : List (ℚ × ℚ)),
    (∀ v ∈ vs, 1 ≤ v ∧ v ≤ 127) →
    ∀ n ∈ assembleRows ns vs ods,
      (1 ≤ n.velocity ∧ n.velocity ≤ 127) ∧ (1 ≤ n.pitch ∧ n.pitch ≤ 127)
  | n0 :: ns, v :: vs, od :: ods, hv, n, hn => by
    rw [assembleRows] at hn
    rcases List.mem_cons.mp hn with h | h
    · subst h
      refine ⟨?_, clip_bounds_int n0.1⟩
      exact truncQ_bounds v (hv v (List.mem_cons_self v vs)).1
        (hv v (List.mem_cons_self v vs)).2
    · exact assembleRows_bounds ns vs ods
        (fun w hw => hv w (List.mem_cons_of_mem v hw)) n h
  | [], _, _, _, n, hn => by cases hn
  | _ :: _, [], _, _, n, hn => by cases hn
  | _ :: _, _ :: _, [], _, n, hn => by cases hn

/-- C7: for every score, parameter matrix, mean beat period and side
parameters — including parameter values far outside their nominal ranges
— every decoded note has velocity in [1,127] and pitch in [1,127]
(`clip` is spec-modelled, see its doc comment). -/
theorem C7_decode_clipping (norm : TempoNormalization) (exp2 : ℚ → ℚ)
    (score : List (ℤ × ℚ × ℚ)) (parameters : List (ℚ × ℚ × ℚ × ℚ))
    (mean_beat_period : ℚ) (extra : List ℚ) (out : List PerfNote)
    (h : PerformanceCodec.decode norm exp2 score parameters
      mean_beat_period extra = some out) :
    ∀ n ∈ out, (1 ≤ n.velocity ∧ n.velocity ≤ 127) ∧
      (1 ≤ n.pitch ∧ n.pitch ≤ 127) := by
  rw [PerformanceCodec.decode] at h
  cases htd : TimeCodec.decode norm exp2 (score.map (·.2.1)) (score.map (·.2.2))
      (parameters.map (fun r => (r.2.1, r.2.2.1, r.2.2.2))) mean_beat_period extra with
  | none =>
    rw [htd] at h
    simp at h
  | some od =>
    rw [htd] at h
    simp only [Option.pure_def, Option.bind_eq_bind, Option.some_bind,
      Option.some.injEq] at h
    rw [← h]
    apply assembleRows_bounds
    intro v hv
    rcases List.mem_map.mp hv with ⟨w, _, hw⟩
    rw [← hw]
    exact clip_bounds_rat w

/-- Witness for C7 at a concrete input with out-of-range pitches (200 and
-5) and out-of-range dynamics parameters (2 and -3): decode succeeds and
the theorem bounds apply to its output. -/
theorem C7_decode_clipping_witness :
    PerformanceCodec.decode defaultTempoNormalization (fun x => x + 1)
        [(200, 0, 1), (-5, 1, 1)] [(2, 1/2, 0, 0), (-3, 1/2, 0, 0)] 99 []
      = some [⟨127, 0, 1, 2, 0, 1/2⟩, ⟨1, 1, 1, 1, 1/2, 1/2⟩] ∧
    ∀ n ∈ [(⟨127, 0, 1, 2, 0, 1/2⟩ : PerfNote), ⟨1, 1, 1, 1, 1/2, 1/2⟩],
      (1 ≤ n.velocity ∧ n.velocity ≤ 127) ∧ (1 ≤ n.pitch ∧ n.pitch ≤ 127) := by
  have hgu : get_unique_onset_idxs [0, 1] (1/1000000) = [[0], [1]] := by
    norm_num [get_unique_onset_idxs, argsort, idxLe, List.insertionSort,
      List.orderedInsert, splitRuns]
  have hsi : get_unique_seq [0, 1] (List.zipWith (· + ·) [0, 1] [1, 1]) none
      = some ⟨[0, 1, 2], 2, [[0], [1]], [1, 1]⟩ := by
    norm_num [get_unique_seq, hgu, groupMean, listMax, listMin, eps32, diffs, max_def]
  have htd : TimeCodec.decode defaultTempoNormalization (fun x => x + 1) [0, 1] [1, 1]
      [(1/2, 0, 0), (1/2, 0, 0)] 99 []
      = some [(0, 1/2), (1/2, 1/2)] := by
    rw [TimeCodec.decode, hsi]
    simp only [Option.pure_def, Option.bind_eq_bind, Option.some_bind]
    norm_num [defaultTempoNormalization, groupMean, cumsum, assignDecode,
      listMin, min_def, show List.range 2 = [0, 1] from rfl, List.replicate,
      List.getElem?_cons_zero, List.getElem?_cons_succ, List.getElem?_nil]
  have hdec : PerformanceCodec.decode defaultTempoNormalization (fun x => x + 1)
      [(200, 0, 1), (-5, 1, 1)] [(2, 1/2, 0, 0), (-3, 1/2, 0, 0)] 99 []
      = some [⟨127, 0, 1, 2, 0, 1/2⟩, ⟨1, 1, 1, 1, 1/2, 1/2⟩] := by
    rw [PerformanceCodec.decode]
    simp only [List.map_cons, List.map_nil]
    rw [htd]
    simp only [Option.pure_def, Option.bind_eq_bind, Option.some_bind]
    norm_num [NotewiseDynamicsCodec.decode, listMax, roundHalfEven, assembleRows,
      clip, truncQ, max_def, min_def]
  exact ⟨hdec, C7_decode_clipping defaultTempoNormalization (fun x => x + 1)
    [(200, 0, 1), (-5, 1, 1)] [(2, 1/2, 0, 0), (-3, 1/2, 0, 0)] 99 [] _ hdec⟩

/-! ## Claim C8: side outputs of encode under the variance scheme -/

theorem tempoEval_two_groups :
    tempo_by_average [0, 1] [0, 1] [1, 1] [1, 3] none
      = some ([1, 3], [0, 1], [[0], [1]]) := by
  have hq : get_unique_onset_idxs [0, 10000] (1/1000000) = [[0], [1]] := by
    norm_num [get_unique_onset_idxs, argsort, idxLe, List.insertionSort,
      List.orderedInsert, splitRuns]
  have hs : get_unique_seq [0, 1] (List.zipWith (· + ·) [0, 1] [1, 1]) (some [[0], [1]])
      = some ⟨[0, 1, 2], 2, [[0], [1]], [1, 1]⟩ := by
    norm_num [get_unique_seq, groupMean, listMax, listMin, eps32, diffs, max_def]
  have hp : get_unique_seq [0, 1] (List.zipWith (· + ·) [0, 1] [1, 3]) (some [[0], [1]])
      = some ⟨[0, 1, 4], 4, [[0], [1]], [1, 3]⟩ := by
    norm_num [get_unique_seq, groupMean, listMax, listMin, eps32, diffs, max_def]
  have hmono : is_monotonic true
      [((-(1/8388608) : ℚ), (-(1/8388608) : ℚ)), (0 : ℚ × ℚ), (1 : ℚ × ℚ), (4, 2),
        (33554433/8388608, 16777217/8388608)] = true := by
    norm_num [is_monotonic, stepQuot]
  have hrec := monotonize_times_rec_eq true
    [((-(1/8388608) : ℚ), (-(1/8388608) : ℚ)), (0 : ℚ × ℚ), (1 : ℚ × ℚ), (4, 2),
      (33554433/8388608, 16777217/8388608)]
  rw [if_pos hmono] at hrec
  have hmt : monotonize_times [0, 1, 4] true [0, 1, 2] = ([0, 1, 4], [0, 1, 2]) := by
    norm_num [monotonize_times, listMin, listMax, eps32, min_def, max_def, hrec]
  rw [tempo_by_average]
  simp only [Option.getD_none]
  rw [show List.map (fun x => ((truncQ (10000 * x) : ℤ) : ℚ)) [0, 1] = [0, 10000]
    by norm_num [truncQ], hq, hs, hp]
  simp only [Option.pure_def, Option.bind_eq_bind, Option.some_bind]
  norm_num [hmt, diffs, interp1d, interpSeg, List.insertionSort, List.orderedInsert]

theorem encodeInnerEval_standard :
    TimeCodec.encodeInner StandardTempoNormalization (fun x => x - 1)
        [0, 1] [0, 1] [1, 1] [1, 3]
      = some ⟨[(-1, 0, 0), (1, 0, 0)], 2, [[0], [1]]⟩ := by
  have hstd : stdQ [1, 3] = 1 := by
    norm_num [stdQ, varQ, ratSqrt, listMean, Nat.sqrt_one]
  rw [TimeCodec.encodeInner, tempoEval_two_groups]
  simp only [Option.pure_def, Option.bind_eq_bind, Option.some_bind]
  norm_num [StandardTempoNormalization, hstd, listMean, cumsum, groupMean,
    encode_articulation, assignTimeParams, diffs,
    show List.range 2 = [0, 1] from rfl, List.replicate,
    List.getElem?_cons_zero, List.getElem?_cons_succ, List.getElem?_nil]

/-- C8 (amended): for EVERY normalization scheme, the only scalar side
output of `TimeCodec._encode` is the mean of the beat-period curve — the
standard deviation needed by the zero-mean-unit-variance scheme is NOT
produced at encode time; `StandardTempoNormalization.rescale_tempo`
consumes it as an additional caller-supplied side parameter
(`tp * std + mean`). -/
theorem C8_encode_side_output (norm : TempoNormalization) (log2 : ℚ → ℚ)
    (so po sd pd : List ℚ) (r : EncodeOut)
    (h : TimeCodec.encodeInner norm log2 so po sd pd = some r) :
    ((tempo_by_average so po sd pd none).map (fun t => listMean t.1)
        = some r.mean_beat_period) ∧
    (∀ (tp : List ℚ) (m s : ℚ),
      StandardTempoNormalization.rescale_tempo tp m [s]
        = tp.map (fun v => v * s + m)) := by
  constructor
  · rw [TimeCodec.encodeInner] at h
    cases ht : tempo_by_average so po sd pd none with
    | none =>
      rw [ht] at h
      simp at h
    | some t =>
      obtain ⟨bp, io, u⟩ := t
      rw [ht] at h
      simp only [Option.pure_def, Option.bind_eq_bind, Option.some_bind,
        Option.some.injEq] at h
      rw [← h]
      simp
  · intro tp m s
    simp [StandardTempoNormalization]

/-- Counterexample for C8 as stated: with the zero-mean-unit-variance
scheme configured, at the concrete input below the beat-period curve is
`[1, 3]` with standard deviation 1, but the scalar side output of encode
is the mean 2 — the standard deviation is not among encode's outputs.
(`fun x => x - 1` agrees with `np.log2` at the only points used:
`log2 1 = 0`.) -/
theorem C8_encode_side_output_cex :
    (TimeCodec.encodeInner StandardTempoNormalization (fun x => x - 1)
        [0, 1] [0, 1] [1, 1] [1, 3]).map EncodeOut.mean_beat_period = some 2 ∧
    (tempo_by_average [0, 1] [0, 1] [1, 1] [1, 3] none).map (fun t => stdQ t.1)
        = some 1 ∧
    (2 : ℚ) ≠ 1 := by
  refine ⟨?_, ?_, by norm_num⟩
  · rw [encodeInnerEval_standard]
    rfl
  · rw [tempoEval_two_groups]
    simp only [Option.map_some']
    norm_num [stdQ, varQ, ratSqrt, listMean, Nat.sqrt_one]

/-- Witness for C8 at the concrete input of the counterexample: encode's
scalar side output equals the mean of the tempo curve, and the standard
scheme's rescale consumes the caller-supplied standard deviation. -/
theorem C8_encode_side_output_witness :
    (tempo_by_average [0, 1] [0, 1] [1, 1] [1, 3] none).map (fun t => listMean t.1)
        = some 2 ∧
    StandardTempoNormalization.rescale_tempo [-1, 1] 2 [1]
        = [-1 * 1 + 2, 1 * 1 + 2] := by
  have h := C8_encode_side_output StandardTempoNormalization (fun x => x - 1)
    [0, 1] [0, 1] [1, 1] [1, 3] ⟨[(-1, 0, 0), (1, 0, 0)], 2, [[0], [1]]⟩
    encodeInnerEval_standard
  refine ⟨by simpa using h.1, ?_⟩
  rw [h.2 [-1, 1] 2 1]
  simp

/-! ## Generic list lemmas for the round-trip proof (C1) -/

theorem getD_map_range {α : Type} (f : ℕ → α) (N i : ℕ) (d : α) (h : i < N) :
    (((List.range N).map f).getD i d) = f i := by
  rw [List.getD_eq_getElem?_getD, List.getElem?_map, List.getElem?_range h]
  rfl

theorem map_getD_range (l : List ℚ) :
    (List.range l.length).map (fun i => l.getD i 0) = l := by
  induction l with
  | nil => rfl
  | cons x xs ih =>
    rw [List.length_cons, List.range_succ_eq_map, List.map_cons, List.map_map]
    rw [show ((fun i => (x :: xs).getD i 0) ∘ (· + 1)) = fun i => xs.getD i 0 by
      funext i
      simp [List.getD_cons_succ]]
    rw [ih]
    rfl

theorem getD_mem (l : List ℚ) (i : ℕ) (h : i < l.length) : l.getD i 0 ∈ l := by
  rw [List.getD_eq_getElem?_getD, List.getElem?_eq_getElem h]
  exact List.getElem_mem h

theorem getD_map_of_lt (l : List ℚ) (f : ℚ → ℚ) (i : ℕ) (h : i < l.length) :
    (l.map f).getD i 0 = f (l.getD i 0) := by
  rw [List.getD_eq_getElem?_getD, List.getD_eq_getElem?_getD, List.getElem?_map,
    List.getElem?_eq_getElem h]
  rfl

theorem listMin_head_le (x : ℚ) (xs : List ℚ) (h : ∀ y ∈ xs, x ≤ y) :
    listMin (x :: xs) = x := by
  rw [listMin]
  induction xs generalizing x with
  | nil => rfl
  | cons y ys ih =>
    rw [List.foldl_cons, min_eq_left (h y (List.mem_cons_self y ys))]
    exact ih x (fun z hz => h z (List.mem_cons_of_mem y hz))

theorem foldl_max_le (l : List ℚ) : ∀ (x a : ℚ), x ≤ a → (∀ y ∈ l, y ≤ a) →
    l.foldl max x ≤ a := by
  induction l with
  | nil =>
    intro x a hx _
    simpa using hx
  | cons y ys ih =>
    intro x a hx h
    rw [List.foldl_cons]
    exact ih (max x y) a (max_le hx (h y (List.mem_cons_self y ys)))
      (fun z hz => h z (List.mem_cons_of_mem y hz))

theorem listMax_concat_ge (l : List ℚ) (a : ℚ) (h : ∀ y ∈ l, y ≤ a) :
    listMax (l ++ [a]) = a := by
  cases l with
  | nil => simp [listMax]
  | cons x xs =>
    rw [List.cons_append, listMax, List.foldl_append, List.foldl_cons, List.foldl_nil]
    exact max_eq_right (foldl_max_le xs x a (h x (List.mem_cons_self x xs))
      (fun z hz => h z (List.mem_cons_of_mem x hz)))

theorem diffs_concat : ∀ (l : List ℚ) (a : ℚ), l ≠ [] →
    diffs (l ++ [a]) = diffs l ++ [a - l.getLastD 0]
  | [], _, h => absurd rfl h
  | [x], a, _ => by
    rw [show ([x] : List ℚ) ++ [a] = [x, a] from rfl,
      show diffs [x, a] = [a - x] from rfl]
    rfl
  | x :: y :: rest, a, _ => by
    rw [List.cons_append, show diffs (x :: (y :: rest ++ [a]))
        = (y - x) :: diffs (y :: rest ++ [a]) from by
        cases rest <;> rfl]
    rw [diffs_concat (y :: rest) a (by simp)]
    rfl

theorem diffs_map_mul (P : ℚ) : ∀ (l : List ℚ),
    diffs (l.map (fun x => P * x)) = (diffs l).map (fun x => P * x)
  | [] => rfl
  | [_] => rfl
  | x :: y :: rest => by
    rw [List.map_cons, List.map_cons,
      show diffs (P * x :: P * y :: (rest.map (fun x => P * x)))
        = (P * y - P * x) :: diffs (P * y :: rest.map (fun x => P * x)) from rfl,
      show diffs (x :: y :: rest) = (y - x) :: diffs (y :: rest) from rfl,
      List.map_cons, ← List.map_cons (fun x => P * x) y rest,
      diffs_map_mul P (y :: rest)]
    rw [mul_sub]

theorem getLastD_map_range (f : ℕ → ℚ) (N : ℕ) (h : 1 ≤ N) :
    (((List.range N).map f).getLastD 0) = f (N - 1) := by
  match N, h with
  | n + 1, _ =>
    rw [List.range_succ, List.map_append, List.map_singleton, List.getLastD_concat]
    simp

theorem diffs_range_cast : ∀ (N : ℕ),
    diffs ((List.range N).map (fun i : ℕ => (i : ℚ))) = List.replicate (N - 1) 1
  | 0 => rfl
  | 1 => rfl
  | n + 2 => by
    rw [List.range_succ, List.map_append, List.map_singleton,
      diffs_concat _ _ (by simp [List.range_succ]),
      diffs_range_cast (n + 1),
      getLastD_map_range _ _ (by omega)]
    rw [show ((n + 1 : ℕ) : ℚ) - ((n + 1 - 1 : ℕ) : ℚ) = 1 by
      push_cast
      ring]
    rw [show (n + 2 - 1 : ℕ) = (n + 1 - 1) + 1 from by omega,
      List.replicate_succ' (n + 1 - 1) (1 : ℚ)]

theorem scanl_add_concat : ∀ (l : List ℚ) (b x : ℚ),
    List.scanl (· + ·) b (l ++ [x])
      = List.scanl (· + ·) b l ++ [l.foldl (· + ·) b + x]
  | [], b, x => by simp [List.scanl]
  | a :: l, b, x => by
    rw [List.cons_append, List.scanl_cons, scanl_add_concat l (b + a) x,
      List.scanl_cons]
    rfl

theorem scanl_add_replicate (P : ℚ) : ∀ (n : ℕ) (acc : ℚ),
    List.scanl (· + ·) acc (List.replicate n P)
      = (List.range (n + 1)).map (fun i : ℕ => acc + P * (i : ℚ))
  | 0, acc => by norm_num [show List.range 1 = [0] from rfl]
  | n + 1, acc => by
    rw [List.replicate_succ, List.scanl_cons, scanl_add_replicate P n (acc + P),
      show List.range (n + 1 + 1) = 0 :: (List.range (n + 1)).map Nat.succ from
        List.range_succ_eq_map (n + 1),
      List.map_cons, List.map_map]
    congr 1
    · norm_num
      intro a _
      push_cast
      ring

theorem cumsum_concat (l : List ℚ) (x : ℚ) :
    cumsum (l ++ [x]) = cumsum l ++ [l.foldl (· + ·) 0 + x] := by
  rw [cumsum, cumsum, scanl_add_concat, List.drop_append_of_le_length (by
    rw [List.length_scanl]
    omega)]

theorem cumsum_zero_replicate (P : ℚ) (n : ℕ) :
    cumsum ((0 : ℚ) :: List.replicate n P)
      = (List.range (n + 1)).map (fun i : ℕ => P * (i : ℚ)) := by
  rw [cumsum, List.scanl_cons, List.singleton_append, List.drop_succ_cons,
    List.drop_zero, scanl_add_replicate]
  refine List.map_congr_left ?_
  intro a _
  ring

theorem foldl_set_prefix {α : Type} (V : ℕ → α) : ∀ (K : ℕ) (init : List α),
    K ≤ init.length →
    (List.range K).foldl (fun rows i => rows.set i (V i)) init
      = (List.range K).map V ++ init.drop K
  | 0, init, _ => by simp
  | K + 1, init, h => by
    rw [List.range_succ, List.foldl_append, foldl_set_prefix V K init (by omega),
      List.foldl_cons, List.foldl_nil, List.map_append, List.map_singleton]
    have hlen : ((List.range K).map V).length = K := by simp
    rw [List.set_append_right _ _ (by omega), hlen, Nat.sub_self,
      List.drop_eq_getElem_cons (show K < init.length by omega),
      List.set_cons_zero, List.append_assoc, List.singleton_append]

theorem zip_map_range {α : Type} (f : ℕ → α) (dflt : α) :
    ∀ (N : ℕ) (l : List α), l.length = N →
    ((List.range N).map f).zip l = (List.range N).map (fun i => (f i, l.getD i dflt))
  | 0, l, h => by
    rw [List.length_eq_zero.mp h]
    rfl
  | N + 1, l, h => by
    match l with
    | x :: l2 =>
      rw [List.range_succ_eq_map, List.map_cons, List.map_cons, List.zip_cons_cons,
        List.map_map, List.map_map,
        zip_map_range (f ∘ Nat.succ) dflt N l2 (by simpa using h)]
      congr 1

theorem chain_lt_map_range (f : ℕ → ℚ) (hf : ∀ m : ℕ, f m < f (m + 1)) (N : ℕ) :
    List.Chain' (· < ·) ((List.range N).map f) := by
  rw [List.chain'_map]
  match N with
  | 0 => simp
  | n + 1 =>
    rw [List.chain'_range_succ]
    intro m _
    exact hf m

theorem chain_getD_range (onsets : List ℚ) (R : ℚ → ℚ → Prop)
    (h : List.Chain' R onsets) :
    List.Chain' (fun a b : ℕ => R (onsets.getD a 0) (onsets.getD b 0))
      (List.range onsets.length) := by
  match hlen : onsets.length with
  | 0 => simp
  | n + 1 =>
    rw [List.chain'_range_succ]
    intro m hm
    rw [List.chain'_iff_get] at h
    have h1 := h m (by omega)
    simp only [List.getD_eq_getElem?_getD]
    rw [List.getElem?_eq_getElem (by omega), List.getElem?_eq_getElem (by omega)]
    simpa [List.get_eq_getElem] using h1

theorem groups_singleton (onsets : List ℚ) (eps : ℚ) (hne : onsets ≠ [])
    (hsorted : onsets.Sorted (· ≤ ·))
    (hgaps : List.Chain' (fun a b => eps < b - a) onsets) :
    get_unique_onset_idxs onsets eps
      = (List.range onsets.length).map (fun i => [i]) := by
  rw [get_unique_onset_idxs, argsort_of_sorted onsets hsorted]
  have hchain : List.Chain' (fun a b : ℕ =>
      eps < onsets.getD b 0 - onsets.getD a 0) (List.range onsets.length) :=
    chain_getD_range onsets _ hgaps
  match onsets, hne, hchain with
  | x :: rest, _, hchain =>
    rw [List.length_cons, List.range_succ_eq_map] at hchain ⊢
    rw [splitRuns, splitRuns_singleton _ eps _ 0 hchain, List.map_cons]

theorem map_groupMean_singletons (vals : List ℚ) :
    ((List.range vals.length).map (fun i => [i])).map (fun g => groupMean vals g)
      = vals := by
  rw [List.map_map]
  rw [show ((fun g => groupMean vals g) ∘ fun i : ℕ => [i])
      = fun i : ℕ => vals.getD i 0 from by
    funext i
    simp [groupMean]]
  exact map_getD_range vals

theorem get_unique_seq_eval (onsets offs : List ℚ) (uOpt : Option (List (List ℕ)))
    (h : onsets ≠ [])
    (hu : uOpt.getD (get_unique_onset_idxs onsets (1/1000000))
        = (List.range onsets.length).map (fun i => [i])) :
    get_unique_seq onsets offs uOpt
      = some ⟨onsets ++ [max (listMax onsets + eps32) (listMax offs)],
              max (listMax onsets + eps32) (listMax offs) - listMin onsets,
              (List.range onsets.length).map (fun i => [i]),
              diffs (onsets ++ [max (listMax onsets + eps32) (listMax offs)])⟩ := by
  rw [get_unique_seq, if_neg (by simpa using h)]
  simp only [hu, map_groupMean_singletons]

theorem foldl_min_le_init (xs : List ℚ) : ∀ (x : ℚ), xs.foldl min x ≤ x := by
  induction xs with
  | nil => intro x; simp
  | cons y ys ih =>
    intro x
    rw [List.foldl_cons]
    exact le_trans (ih (min x y)) (min_le_left x y)

theorem listMin_le_head (x : ℚ) (xs : List ℚ) : listMin (x :: xs) ≤ x := by
  rw [listMin]
  exact foldl_min_le_init xs x

theorem le_foldl_max_init (xs : List ℚ) : ∀ (x : ℚ), x ≤ xs.foldl max x := by
  induction xs with
  | nil => intro x; simp
  | cons y ys ih =>
    intro x
    rw [List.foldl_cons]
    exact le_trans (le_max_left x y) (ih (max x y))

theorem mem_le_foldl_max (l : List ℚ) : ∀ (x y : ℚ), y ∈ l → y ≤ l.foldl max x := by
  induction l with
  | nil =>
    intro x y hy
    cases hy
  | cons z zs ih =>
    intro x y hy
    rw [List.foldl_cons]
    rcases List.mem_cons.mp hy with h | h
    · subst h
      exact le_trans (le_max_right x y) (le_foldl_max_init zs (max x y))
    · exact ih (max x z) y h

theorem mem_le_listMax (l : List ℚ) (y : ℚ) (hy : y ∈ l) : y ≤ listMax l := by
  match l, hy with
  | x :: xs, hy =>
    rw [listMax]
    rcases List.mem_cons.mp hy with h | h
    · exact h ▸ le_foldl_max_init xs x
    · exact mem_le_foldl_max xs x y h

theorem stepQuot_pos_of_chains : ∀ (pts : List (ℚ × ℚ)),
    List.Chain' (· < ·) (pts.map Prod.fst) →
    List.Chain' (· < ·) (pts.map Prod.snd) →
    ∀ r ∈ stepQuot pts, 0 < r
  | [], _, _, r, hr => by cases hr
  | [_], _, _, r, hr => by cases hr
  | p :: q :: rest, h1, h2, r, hr => by
    rw [stepQuot_cons] at hr
    rcases List.mem_cons.mp hr with h | h
    · subst h
      rw [List.map_cons, List.map_cons, List.chain'_cons] at h1 h2
      exact div_pos (by linarith [h1.1]) (by linarith [h2.1])
    · exact stepQuot_pos_of_chains (q :: rest)
        (by simpa using (List.chain'_cons.mp (by simpa using h1)).2)
        (by simpa using (List.chain'_cons.mp (by simpa using h2)).2) r h

theorem is_monotonic_of_all_pos (pts : List (ℚ × ℚ))
    (h : ∀ r ∈ stepQuot pts, 0 < r) : is_monotonic true pts = true := by
  rw [is_monotonic]
  by_cases hlen : pts.length < 4
  · rw [if_pos hlen]
  · rw [if_neg hlen, if_pos rfl]
    rw [List.all_eq_true]
    intro r hr
    simpa using h r hr

theorem chain_lt_pad (s : List ℚ) (e : ℚ) (he : 0 < e) (hne : s ≠ [])
    (hs : List.Chain' (· < ·) s) :
    List.Chain' (· < ·) ((listMin s - e) :: s ++ [listMax s + e]) := by
  match s, hne, hs with
  | x :: xs, _, hs =>
    have h1 : listMin (x :: xs) - e < x := by
      have := listMin_le_head x xs
      linarith
    have h2 : List.Chain' (· < ·) ((x :: xs) ++ [listMax (x :: xs) + e]) := by
      rw [List.chain'_append]
      refine ⟨hs, List.chain'_singleton _, ?_⟩
      intro a ha b hb
      obtain ⟨hex, hax⟩ := List.mem_getLast?_eq_getLast ha
      have hmem : a ∈ x :: xs := hax ▸ List.getLast_mem hex
      have hb2 : listMax (x :: xs) + e = b := by simpa using hb
      have := mem_le_listMax (x :: xs) a hmem
      rw [← hb2]
      linarith
    exact List.chain'_cons.mpr ⟨h1, h2⟩

theorem monotonize_times_id (s d : List ℚ) (hlen : s.length = d.length)
    (hs : List.Chain' (· < ·) s) (hd : List.Chain' (· < ·) d) (hne : s ≠ []) :
    monotonize_times s true d = (s, d) := by
  have hdne : d ≠ [] := by
    intro hc
    rw [hc] at hlen
    simp only [List.length_nil] at hlen
    exact hne (List.length_eq_zero.mp hlen)
  have he : (0 : ℚ) < eps32 := by norm_num [eps32]
  have hchain1 := chain_lt_pad s eps32 he hne hs
  have hchain2 := chain_lt_pad d eps32 he hdne hd
  have hpadlen : ((listMin s - eps32) :: s ++ [listMax s + eps32]).length
      = ((listMin d - eps32) :: d ++ [listMax d + eps32]).length := by
    simp [hlen]
  have hpos : ∀ r ∈ stepQuot (((listMin s - eps32) :: s ++ [listMax s + eps32]).zip
      ((listMin d - eps32) :: d ++ [listMax d + eps32])), 0 < r := by
    apply stepQuot_pos_of_chains
    · rw [List.map_fst_zip _ _ (le_of_eq hpadlen)]
      exact hchain1
    · rw [List.map_snd_zip _ _ (ge_of_eq hpadlen)]
      exact hchain2
  have hrec := monotonize_times_rec_eq true
    (((listMin s - eps32) :: s ++ [listMax s + eps32]).zip
      ((listMin d - eps32) :: d ++ [listMax d + eps32]))
  rw [if_pos (is_monotonic_of_all_pos _ hpos)] at hrec
  rw [monotonize_times]
  simp only [eq_self_iff_true, if_true, hrec]
  rw [List.cons_append, List.cons_append, List.zip_cons_cons, List.drop_one,
    List.tail_cons, List.zip_append hlen,
    show [listMax s + eps32].zip [listMax d + eps32]
      = [(listMax s + eps32, listMax d + eps32)] from rfl,
    List.dropLast_concat,
    List.map_fst_zip s d (le_of_eq hlen), List.map_snd_zip s d (ge_of_eq hlen)]

theorem pairwise_zip_fst (R : ℚ → ℚ → Prop) :
    ∀ (xs ys : List ℚ), List.Pairwise R xs →
    List.Pairwise (fun p q : ℚ × ℚ => R p.1 q.1) (xs.zip ys)
  | [], _, _ => by simp
  | _ :: _, [], _ => by simp
  | x :: xs, y :: ys, h => by
    rw [List.zip_cons_cons]
    refine List.Pairwise.cons ?_ (pairwise_zip_fst R xs ys h.tail)
    intro q hq
    exact List.rel_of_pairwise_cons h (List.of_mem_zip hq).1

theorem chain_zip_fst (R : ℚ → ℚ → Prop) :
    ∀ (xs ys : List ℚ), List.Chain' R xs →
    List.Chain' (fun p q : ℚ × ℚ => R p.1 q.1) (xs.zip ys)
  | [], _, _ => by simp
  | [_], ys, _ => by cases ys <;> simp
  | _ :: _ :: _, [], _ => by simp
  | _ :: _ :: _, [_], _ => by simp
  | x1 :: x2 :: xs, y1 :: y2 :: ys, h => by
    rw [List.zip_cons_cons, List.zip_cons_cons, List.chain'_cons]
    refine ⟨(List.chain'_cons.mp h).1, ?_⟩
    have hrec := chain_zip_fst R (x2 :: xs) (y2 :: ys) (List.chain'_cons.mp h).2
    rwa [List.zip_cons_cons] at hrec

theorem interpSeg_at_knot :
    ∀ (pts : List (ℚ × ℚ)), List.Chain' (fun p q : ℚ × ℚ => p.1 < q.1) pts →
    ∀ p ∈ pts, interpSeg pts p.1 = p.2
  | [], _, p, hp => absurd hp (List.not_mem_nil p)
  | [(x0, y0)], _, p, hp => by
    rw [List.mem_singleton] at hp
    subst hp
    rfl
  | (x0, y0) :: (x1, y1) :: rest, h, p, hp => by
    have h01 : x0 < x1 := (List.chain'_cons.mp h).1
    rcases List.mem_cons.mp hp with hp0 | hp1
    · subst hp0
      rw [interpSeg, if_pos (le_of_lt h01)]
      simp
    · rcases List.mem_cons.mp hp1 with hpe | hpr
      · subst hpe
        rw [interpSeg, if_pos le_rfl]
        have hne : x1 - x0 ≠ 0 := sub_ne_zero.mpr (ne_of_gt h01)
        field_simp
      · have htrans : List.Pairwise (fun p q : ℚ × ℚ => p.1 < q.1)
            ((x0, y0) :: (x1, y1) :: rest) := by
          haveI : IsTrans (ℚ × ℚ) (fun p q : ℚ × ℚ => p.1 < q.1) :=
            ⟨fun _ _ _ hab hbc => lt_trans hab hbc⟩
          exact List.chain'_iff_pairwise.mp h
        have hx1 : x1 < p.1 :=
          List.rel_of_pairwise_cons (List.pairwise_cons.mp htrans).2 hpr
        rw [interpSeg, if_neg (not_le.mpr hx1)]
        exact interpSeg_at_knot ((x1, y1) :: rest) (List.chain'_cons.mp h).2 p hp1

theorem getLastD_mem_gen {α : Type} : ∀ (l : List α) (d : α), l ≠ [] → l.getLastD d ∈ l
  | [], _, h => absurd rfl h
  | [a], d, _ => by simp
  | a :: b :: t, d, _ => by
    rw [List.getLastD_cons]
    exact List.mem_cons_of_mem a (getLastD_mem_gen (b :: t) a (by simp))

theorem fst_le_getLastD :
    ∀ (l : List (ℚ × ℚ)), List.Pairwise (fun p q : ℚ × ℚ => p.1 ≤ q.1) l →
    ∀ p ∈ l, p.1 ≤ (l.getLastD (0, 0)).1
  | [], _, p, hp => absurd hp (List.not_mem_nil p)
  | [a], _, p, hp => by
    rw [List.mem_singleton] at hp
    subst hp
    simp
  | a :: b :: t, h, p, hp => by
    rw [List.getLastD_cons]
    rcases List.mem_cons.mp hp with hp0 | hp1
    · subst hp0
      exact List.rel_of_pairwise_cons h (getLastD_mem_gen (b :: t) p (by simp))
    · exact fst_le_getLastD (b :: t) h.tail p hp1

theorem interp1d_sorted_cons (xs ys : List ℚ) (lo hi x : ℚ) (a b : ℚ)
    (tl : List (ℚ × ℚ))
    (h : List.insertionSort (fun p q : ℚ × ℚ => p.1 ≤ q.1) (xs.zip ys)
        = (a, b) :: tl) :
    interp1d xs ys lo hi x =
      if x < a then lo
      else if x > (((a, b) :: tl).getLastD (0, 0)).1 then hi
      else interpSeg ((a, b) :: tl) x := by
  rw [interp1d, h]

theorem interp1d_at_knot (xs ys : List ℚ) (hs : List.Chain' (· < ·) xs)
    (lo hi : ℚ) (p : ℚ × ℚ) (hp : p ∈ xs.zip ys) :
    interp1d xs ys lo hi p.1 = p.2 := by
  have hchain : List.Chain' (fun p q : ℚ × ℚ => p.1 < q.1) (xs.zip ys) :=
    chain_zip_fst _ xs ys hs
  haveI : IsTrans (ℚ × ℚ) (fun p q : ℚ × ℚ => p.1 < q.1) :=
    ⟨fun _ _ _ hab hbc => lt_trans hab hbc⟩
  have hpw : List.Pairwise (fun p q : ℚ × ℚ => p.1 < q.1) (xs.zip ys) :=
    List.chain'_iff_pairwise.mp hchain
  have hpwle : List.Pairwise (fun p q : ℚ × ℚ => p.1 ≤ q.1) (xs.zip ys) :=
    hpw.imp (fun hlt => le_of_lt hlt)
  have hsort : List.insertionSort (fun p q : ℚ × ℚ => p.1 ≤ q.1) (xs.zip ys)
      = xs.zip ys := List.Sorted.insertionSort_eq hpwle
  match hz : xs.zip ys, hp with
  | (a, b) :: tl, hp =>
    have hsort2 := hsort.trans hz
    rw [hz] at hchain hpw hpwle
    rw [interp1d_sorted_cons xs ys lo hi p.1 a b tl hsort2]
    have hhead : a ≤ p.1 := by
      rcases List.mem_cons.mp hp with hp0 | hp1
      · rw [hp0]
      · exact List.rel_of_pairwise_cons hpwle hp1
    rw [if_neg (not_lt.mpr hhead),
      if_neg (not_lt.mpr (fst_le_getLastD ((a, b) :: tl) hpwle p hp))]
    exact interpSeg_at_knot ((a, b) :: tl) hchain p hp

theorem map_interp_knots (xs ys : List ℚ) (hlen : xs.length = ys.length)
    (hs : List.Chain' (· < ·) xs) (lo hi : ℚ) :
    xs.map (interp1d xs ys lo hi) = ys := by
  apply List.ext_getElem
  · simp [hlen]
  · intro i h1 h2
    rw [List.getElem_map]
    have hx : i < xs.length := by simpa using h1
    have hzl : i < (xs.zip ys).length := by
      rw [List.length_zip]
      omega
    have h3 : (xs.zip ys)[i] = (xs[i], ys[i]) := List.getElem_zip
    have hp : (xs[i], ys[i]) ∈ xs.zip ys := h3 ▸ List.getElem_mem hzl
    have hres := interp1d_at_knot xs ys hs lo hi (xs[i], ys[i]) hp
    simpa using hres


theorem truncQ_nat_scale (i : ℕ) : truncQ (10000 * (i : ℚ)) = (10000 * i : ℤ) := by
  rw [truncQ, if_pos (by positivity),
    show (10000 : ℚ) * (i : ℚ) = ((10000 * i : ℤ) : ℚ) by push_cast; ring,
    Int.floor_intCast]

theorem quantize_range (N : ℕ) :
    (((List.range N).map (fun i : ℕ => (i : ℚ))).map
        (fun x => ((truncQ (10000 * x) : ℤ) : ℚ)))
      = (List.range N).map (fun i : ℕ => 10000 * (i : ℚ)) := by
  rw [List.map_map]
  refine List.map_congr_left ?_
  intro a _
  simp only [Function.comp_apply, truncQ_nat_scale]
  push_cast
  ring

theorem sorted_le_of_chain_lt (l : List ℚ) (h : List.Chain' (· < ·) l) :
    l.Sorted (· ≤ ·) := by
  have hpw : l.Pairwise (· < ·) := List.chain'_iff_pairwise.mp h
  exact hpw.imp (fun hlt => le_of_lt hlt)

theorem groups_singleton_range (f : ℕ → ℚ)
    (hf : ∀ m : ℕ, 1/1000000 < f (m + 1) - f m) (N : ℕ) (h : 1 ≤ N) :
    get_unique_onset_idxs ((List.range N).map f) (1/1000000)
      = (List.range N).map (fun i => [i]) := by
  have hflt : ∀ m : ℕ, f m < f (m + 1) := by
    intro m
    have := hf m
    linarith
  have hchain : List.Chain' (· < ·) ((List.range N).map f) :=
    chain_lt_map_range f hflt N
  have hgaps : List.Chain' (fun a b => 1/1000000 < b - a) ((List.range N).map f) := by
    rw [List.chain'_map]
    match N with
    | n + 1 =>
      rw [List.chain'_range_succ]
      intro m _
      exact hf m
  have hne : (List.range N).map f ≠ [] := by
    simp only [ne_eq, List.map_eq_nil_iff, List.range_eq_nil]
    omega
  rw [groups_singleton _ _ hne (sorted_le_of_chain_lt _ hchain) hgaps]
  simp

theorem chain_lt_concat_max (l : List ℚ) (a : ℚ) (hch : List.Chain' (· < ·) l)
    (ha : listMax l < a) : List.Chain' (· < ·) (l ++ [a]) := by
  rw [List.chain'_append]
  refine ⟨hch, List.chain'_singleton _, ?_⟩
  intro x hx y hy
  obtain ⟨hex, hxl⟩ := List.mem_getLast?_eq_getLast hx
  have hmem : x ∈ l := hxl ▸ List.getLast_mem hex
  have hy2 : a = y := by simpa using hy
  have := mem_le_listMax l x hmem
  rw [← hy2]
  linarith

theorem headD_map_range {α : Type} (f : ℕ → α) (d : α) (N : ℕ) (h : 1 ≤ N) :
    (((List.range N).map f).headD d) = f 0 := by
  match N with
  | n + 1 =>
    rw [List.range_succ_eq_map, List.map_cons]
    rfl

theorem zipWith_replicate_same {α β γ : Type} (f : α → β → γ) (n : ℕ) (a : α) (b : β) :
    List.zipWith f (List.replicate n a) (List.replicate n b)
      = List.replicate n (f a b) := by
  induction n with
  | zero => rfl
  | succ n ih =>
    rw [List.replicate_succ, List.replicate_succ, List.zipWith_cons_cons, ih,
      List.replicate_succ]

theorem zipWith_append_eq {α β γ : Type} (f : α → β → γ)
    (l1 l3 : List α) (l2 l4 : List β) (h : l1.length = l2.length) :
    List.zipWith f (l1 ++ l3) (l2 ++ l4)
      = List.zipWith f l1 l2 ++ List.zipWith f l3 l4 :=
  List.zipWith_append f l1 l3 l2 l4 h

theorem getD_replicate_concat {α : Type} [Inhabited α] (n : ℕ) (P B d : α) (j : ℕ)
    (h : j < n + 1) :
    ((List.replicate n P ++ [B]).getD j d) = if j < n then P else B := by
  by_cases hj : j < n
  · rw [if_pos hj, List.getD_append _ _ _ _ (by simpa using hj)]
    rw [List.getD_eq_getElem?_getD, List.getElem?_replicate, if_pos hj]
    rfl
  · have hj2 : j = n := by omega
    rw [if_neg hj, hj2, List.getD_append_right _ _ _ _ (by simp),
      List.length_replicate, Nat.sub_self]
    rfl

theorem listMin_map_range_zero (P : ℚ) (hP : 0 ≤ P) (N : ℕ) (h : 1 ≤ N) :
    listMin ((List.range N).map (fun i : ℕ => P * (i : ℚ))) = 0 := by
  match N with
  | n + 1 =>
    rw [show List.range (n + 1) = 0 :: (List.range n).map Nat.succ from
      List.range_succ_eq_map n, List.map_cons]
    rw [listMin_head_le]
    · norm_num
    · intro y hy
      rw [List.map_map] at hy
      rcases List.mem_map.mp hy with ⟨m, _, hm⟩
      rw [← hm]
      simp only [Function.comp_apply, Nat.cast_zero, mul_zero]
      exact mul_nonneg hP (Nat.cast_nonneg _)

theorem foldl_range_ext {α : Type} (f g : α → ℕ → α) :
    ∀ (N : ℕ) (init : α), (∀ (a : α) (i : ℕ), i < N → f a i = g a i) →
    (List.range N).foldl f init = (List.range N).foldl g init
  | 0, _, _ => rfl
  | N + 1, init, H => by
    rw [List.range_succ, List.foldl_append, List.foldl_append,
      foldl_range_ext f g N init (fun a i hi => H a i (by omega))]
    simp only [List.foldl_cons, List.foldl_nil]
    exact H _ N (by omega)

theorem zip_map_range2 {α β : Type} (f : ℕ → α) (dflt : β) :
    ∀ (N : ℕ) (l : List β), l.length = N →
    ((List.range N).map f).zip l = (List.range N).map (fun i => (f i, l.getD i dflt))
  | 0, l, h => by
    rw [List.length_eq_zero.mp h]
    rfl
  | N + 1, l, h => by
    match l with
    | x :: l2 =>
      rw [List.range_succ_eq_map, List.map_cons, List.map_cons, List.zip_cons_cons,
        List.map_map, List.map_map,
        zip_map_range2 (f ∘ Nat.succ) dflt N l2 (by simpa using h)]
      congr 1

theorem encode_articulation_singletons (log2 : ℚ → ℚ) (sd pd bp : List ℚ) (N : ℕ)
    (hsd : sd.length = N) (hbp : bp.length = N) :
    encode_articulation log2 sd pd ((List.range N).map (fun i => [i])) bp
      = (List.range N).map (fun j =>
          log2 ((if sd.getD j 0 = 0 then bp.getD j 0 else pd.getD j 0)
            / (bp.getD j 0 * (if sd.getD j 0 = 0 then 1 else sd.getD j 0)))) := by
  rw [encode_articulation,
    zip_map_range2 (fun i : ℕ => ([i] : List ℕ)) (0 : ℚ) N bp hbp,
    List.foldl_map, hsd]
  have h := foldl_set_prefix (fun j => log2
      ((if sd.getD j 0 = 0 then bp.getD j 0 else pd.getD j 0)
        / (bp.getD j 0 * (if sd.getD j 0 = 0 then 1 else sd.getD j 0)))) N
    (List.replicate N (0 : ℚ)) (by simp)
  rw [List.drop_eq_nil_of_le (by simp), List.append_nil] at h
  exact h

theorem assignTimeParams_singletons (N : ℕ) (tp eq po art : List ℚ) :
    assignTimeParams N ((List.range N).map (fun i => [i])) tp eq po art
      = (List.range N).map (fun j =>
          (tp.getD j 0, eq.getD j 0 - po.getD j 0, art.getD j 0)) := by
  rw [assignTimeParams,
    show ((List.range N).map (fun i : ℕ => [i])).length = N by simp,
    foldl_range_ext _ (fun (rows : List (ℚ × ℚ × ℚ)) (i : ℕ) =>
        rows.set i (tp.getD i 0, eq.getD i 0 - po.getD i 0, art.getD i 0)) N _
      (fun rows i hi => by
        rw [getD_map_range (fun i : ℕ => ([i] : List ℕ)) N i [] hi]
        rfl),
    foldl_set_prefix _ N _ (by simp), List.drop_eq_nil_of_le (by simp),
    List.append_nil]

theorem assignDecode_singletons (N : ℕ) (eq : List ℚ) (params : List (ℚ × ℚ × ℚ))
    (bp sd : List ℚ) (exp2 : ℚ → ℚ) :
    assignDecode N ((List.range N).map (fun i => [i])) eq params bp sd exp2
      = (List.range N).map (fun j =>
          (eq.getD j 0 - (params.getD j (0, 0, 0)).2.1,
           exp2 (params.getD j (0, 0, 0)).2.2 * sd.getD j 0 * bp.getD j 0)) := by
  rw [assignDecode,
    show ((List.range N).map (fun i : ℕ => [i])).length = N by simp,
    foldl_range_ext _ (fun (rows : List (ℚ × ℚ)) (i : ℕ) =>
        rows.set i (eq.getD i 0 - (params.getD i (0, 0, 0)).2.1,
          exp2 (params.getD i (0, 0, 0)).2.2 * sd.getD i 0 * bp.getD i 0)) N _
      (fun rows i hi => by
        rw [getD_map_range (fun i : ℕ => ([i] : List ℕ)) N i [] hi]
        rfl),
    foldl_set_prefix _ N _ (by simp), List.drop_eq_nil_of_le (by simp),
    List.append_nil]

set_option maxHeartbeats 1000000 in
theorem tempo_eval (P : ℚ) (N : ℕ) (d : List ℚ)
    (hN : 2 ≤ N) (hP : 0 < P) (hdlen : d.length = N) :
    tempo_by_average ((List.range N).map (fun i : ℕ => (i : ℚ)))
        ((List.range N).map (fun i : ℕ => P * (i : ℚ))) d
        (d.map (fun x => P * x)) none
      = some (List.replicate (N - 1) P ++
          [(max (listMax ((List.range N).map (fun i : ℕ => P * (i : ℚ))) + eps32)
              (listMax (List.zipWith (· + ·)
                ((List.range N).map (fun i : ℕ => P * (i : ℚ)))
                (d.map (fun x => P * x)))) - P * ((N - 1 : ℕ) : ℚ))
           / (max (listMax ((List.range N).map (fun i : ℕ => (i : ℚ))) + eps32)
              (listMax (List.zipWith (· + ·)
                ((List.range N).map (fun i : ℕ => (i : ℚ))) d))
              - ((N - 1 : ℕ) : ℚ))],
          (List.range N).map (fun i : ℕ => (i : ℚ)),
          (List.range N).map (fun i => [i])) := by
  rw [tempo_by_average]
  simp only [Option.getD_none]
  rw [quantize_range N,
    groups_singleton_range (fun i : ℕ => 10000 * (i : ℚ))
      (by intro m; push_cast; ring_nf; norm_num) N (by omega)]
  rw [get_unique_seq_eval _ _ _ (by simp; omega) (by simp)]
  rw [get_unique_seq_eval _ _ _ (by simp; omega) (by simp)]
  simp only [Option.pure_def, Option.bind_eq_bind, Option.some_bind]
  set so2 := (List.range N).map (fun i : ℕ => (i : ℚ)) with hso2
  set po2 := (List.range N).map (fun i : ℕ => P * (i : ℚ)) with hpo2
  set Ls2 := max (listMax so2 + eps32) (listMax (List.zipWith (· + ·) so2 d)) with hLs2
  set Lp2 := max (listMax po2 + eps32)
    (listMax (List.zipWith (· + ·) po2 (d.map (fun x => P * x)))) with hLp2
  have heps : (0 : ℚ) < eps32 := by norm_num [eps32]
  have hchains : List.Chain' (· < ·) so2 := by
    rw [hso2]
    exact chain_lt_map_range _ (by intro m; push_cast; norm_num) N
  have hchainp : List.Chain' (· < ·) po2 := by
    rw [hpo2]
    refine chain_lt_map_range _ ?_ N
    intro m
    have hm : (m : ℚ) < ((m + 1 : ℕ) : ℚ) := by push_cast; norm_num
    exact mul_lt_mul_of_pos_left hm hP
  have hlenN : so2.length = N := by rw [hso2]; simp
  have hlenNp : po2.length = N := by rw [hpo2]; simp
  have hsne : so2 ≠ [] := by
    intro hc
    rw [hc] at hlenN
    simp at hlenN
    omega
  have hpne2 : po2 ≠ [] := by
    intro hc
    rw [hc] at hlenNp
    simp at hlenNp
    omega
  have hLsgt : listMax so2 < Ls2 := by
    rw [hLs2]
    have h1 := le_max_left (listMax so2 + eps32)
      (listMax (List.zipWith (· + ·) so2 d))
    linarith
  have hLpgt : listMax po2 < Lp2 := by
    rw [hLp2]
    have h1 := le_max_left (listMax po2 + eps32)
      (listMax (List.zipWith (· + ·) po2 (d.map (fun x => P * x))))
    linarith
  have hchain_s : List.Chain' (· < ·) (so2 ++ [Ls2]) :=
    chain_lt_concat_max _ _ hchains hLsgt
  have hchain_p : List.Chain' (· < ·) (po2 ++ [Lp2]) :=
    chain_lt_concat_max _ _ hchainp hLpgt
  have hlen2 : (po2 ++ [Lp2]).length = (so2 ++ [Ls2]).length := by
    simp [hlenN, hlenNp]
  have hpne3 : po2 ++ [Lp2] ≠ [] := by simp
  rw [monotonize_times_id (po2 ++ [Lp2]) (so2 ++ [Ls2]) hlen2 hchain_p hchain_s hpne3]
  have hlast_p : po2.getLastD 0 = P * ((N - 1 : ℕ) : ℚ) := by
    rw [hpo2, getLastD_map_range (fun i : ℕ => P * (i : ℚ)) N (by omega)]
  have hlast_s : so2.getLastD 0 = ((N - 1 : ℕ) : ℚ) := by
    rw [hso2, getLastD_map_range (fun i : ℕ => (i : ℚ)) N (by omega)]
  have hdiffs_po : diffs po2 = List.replicate (N - 1) P := by
    rw [hpo2, show (List.range N).map (fun i : ℕ => P * (i : ℚ))
        = ((List.range N).map (fun i : ℕ => (i : ℚ))).map (fun x => P * x) from by
      rw [List.map_map]
      rfl,
      diffs_map_mul, diffs_range_cast, List.map_replicate, mul_one]
  have hdiffs_so : diffs so2 = List.replicate (N - 1) (1 : ℚ) := by
    rw [hso2, diffs_range_cast]
  have hdiffs_p : diffs (po2 ++ [Lp2])
      = List.replicate (N - 1) P ++ [Lp2 - P * ((N - 1 : ℕ) : ℚ)] := by
    rw [diffs_concat _ _ hpne2, hdiffs_po, hlast_p]
  have hdiffs_s : diffs (so2 ++ [Ls2])
      = List.replicate (N - 1) 1 ++ [Ls2 - ((N - 1 : ℕ) : ℚ)] := by
    rw [diffs_concat _ _ hsne, hdiffs_so, hlast_s]
  have hbp : List.zipWith (· / ·) (diffs (po2 ++ [Lp2])) (diffs (so2 ++ [Ls2]))
      = List.replicate (N - 1) P
        ++ [(Lp2 - P * ((N - 1 : ℕ) : ℚ)) / (Ls2 - ((N - 1 : ℕ) : ℚ))] := by
    rw [hdiffs_p, hdiffs_s, zipWith_append_eq _ _ _ _ _ (by simp),
      zipWith_replicate_same, div_one]
    rfl
  simp only [Prod.fst, Prod.snd]
  rw [hbp]
  rw [if_neg (show ¬(List.replicate (N - 1) P
      ++ [(Lp2 - P * ((N - 1 : ℕ) : ℚ)) / (Ls2 - ((N - 1 : ℕ) : ℚ))]).length < 2 by
    simp
    omega)]
  rw [List.dropLast_concat]
  rw [map_interp_knots so2 (List.replicate (N - 1) P
      ++ [(Lp2 - P * ((N - 1 : ℕ) : ℚ)) / (Ls2 - ((N - 1 : ℕ) : ℚ))])
    (by simp [hlenN]; omega) hchains _ _]

theorem map_groupMean_singletons_len (vals : List ℚ) (N : ℕ) (h : vals.length = N) :
    ((List.range N).map (fun i => [i])).map (fun g => groupMean vals g) = vals := by
  subst h
  exact map_groupMean_singletons vals

theorem map_getD_range_len (l : List ℚ) (N : ℕ) (h : l.length = N) :
    (List.range N).map (fun i => l.getD i 0) = l := by
  subst h
  exact map_getD_range l

set_option maxHeartbeats 1000000 in
theorem encodeInner_eval (log2 : ℚ → ℚ) (P : ℚ) (N : ℕ) (d bp : List ℚ)
    (hN : 2 ≤ N) (hdlen : d.length = N) (hbplen : bp.length = N)
    (hbpd : bp.dropLast = List.replicate (N - 1) P)
    (htba : tempo_by_average ((List.range N).map (fun i : ℕ => (i : ℚ)))
        ((List.range N).map (fun i : ℕ => P * (i : ℚ))) d (d.map (fun x => P * x)) none
      = some (bp, (List.range N).map (fun i : ℕ => (i : ℚ)),
          (List.range N).map (fun i => [i]))) :
    TimeCodec.encodeInner defaultTempoNormalization log2
        ((List.range N).map (fun i : ℕ => (i : ℚ)))
        ((List.range N).map (fun i : ℕ => P * (i : ℚ))) d (d.map (fun x => P * x))
      = some ⟨(List.range N).map (fun j =>
            (bp.getD j 0, (0 : ℚ),
             log2 ((if d.getD j 0 = 0 then bp.getD j 0
                 else (d.map (fun x => P * x)).getD j 0)
               / (bp.getD j 0 * (if d.getD j 0 = 0 then 1 else d.getD j 0))))),
          listMean bp, (List.range N).map (fun i => [i])⟩ := by
  rw [TimeCodec.encodeInner, htba]
  simp only [Option.pure_def, Option.bind_eq_bind, Option.some_bind]
  rw [hbpd]
  rw [show diffs ((List.range N).map (fun i : ℕ => (i : ℚ)))
      = List.replicate (N - 1) (1 : ℚ) from diffs_range_cast N]
  rw [zipWith_replicate_same, mul_one, cumsum_zero_replicate,
    show N - 1 + 1 = N from by omega]
  rw [headD_map_range (fun i : ℕ => [i]) [] N (by omega)]
  have hgm : groupMean ((List.range N).map (fun i : ℕ => P * (i : ℚ))) [0] = 0 := by
    rw [groupMean,
      show ([0] : List ℕ).map
          (fun i => ((List.range N).map (fun i : ℕ => P * (i : ℚ))).getD i 0)
        = [((List.range N).map (fun i : ℕ => P * (i : ℚ))).getD 0 0] from rfl,
      getD_map_range (fun i : ℕ => P * (i : ℚ)) N 0 0 (by omega)]
    norm_num
  rw [hgm]
  simp only [add_zero, List.map_id, List.map_id_fun, List.map_id']
  rw [encode_articulation_singletons log2 d (d.map (fun x => P * x)) bp N hdlen hbplen]
  rw [show ((List.range N).map (fun i : ℕ => (i : ℚ))).length = N by simp]
  rw [show defaultTempoNormalization.normalize_tempo bp = bp from rfl]
  rw [assignTimeParams_singletons N bp ((List.range N).map (fun i : ℕ => P * (i : ℚ)))
    ((List.range N).map (fun i : ℕ => P * (i : ℚ)))
    ((List.range N).map (fun j => log2
      ((if d.getD j 0 = 0 then bp.getD j 0 else (d.map (fun x => P * x)).getD j 0)
        / (bp.getD j 0 * (if d.getD j 0 = 0 then 1 else d.getD j 0)))))]
  refine congrArg some ?_
  refine congrArg (fun pr => EncodeOut.mk pr (listMean bp)
    ((List.range N).map (fun i => [i]))) ?_
  refine List.map_congr_left ?_
  intro j hj
  rw [List.mem_range] at hj
  rw [sub_self, getD_map_range _ N j 0 hj]

set_option maxHeartbeats 1000000 in
theorem decode_eval (exp2 : ℚ → ℚ) (A : ℕ → ℚ) (P : ℚ) (N : ℕ) (d : List ℚ)
    (Bl mbp : ℚ) (hN : 2 ≤ N) (hP : 0 < P) (hdlen : d.length = N) :
    TimeCodec.decode defaultTempoNormalization exp2
        ((List.range N).map (fun i : ℕ => (i : ℚ))) d
        ((List.range N).map (fun j =>
          ((List.replicate (N - 1) P ++ [Bl]).getD j 0, (0 : ℚ), A j)))
        mbp []
      = some ((List.range N).map (fun j : ℕ =>
          (P * (j : ℚ),
           exp2 (A j) * d.getD j 0 * (List.replicate (N - 1) P ++ [Bl]).getD j 0))) := by
  rw [TimeCodec.decode]
  rw [get_unique_seq_eval _ _ _ (by simp; omega) (by
    rw [Option.getD_none,
      groups_singleton_range (fun i : ℕ => (i : ℚ))
        (by intro m; push_cast; norm_num) N (by omega)]
    simp)]
  simp only [Option.pure_def, Option.bind_eq_bind, Option.some_bind]
  set so2 := (List.range N).map (fun i : ℕ => (i : ℚ)) with hso2
  set Ls2 := max (listMax so2 + eps32) (listMax (List.zipWith (· + ·) so2 d)) with hLs2
  have hlenN : so2.length = N := by rw [hso2]; simp
  have hsne : so2 ≠ [] := by
    intro hc
    rw [hc] at hlenN
    simp at hlenN
    omega
  have hlast_s : so2.getLastD 0 = ((N - 1 : ℕ) : ℚ) := by
    rw [hso2, getLastD_map_range (fun i : ℕ => (i : ℚ)) N (by omega)]
  have hdiffs_s : diffs (so2 ++ [Ls2])
      = List.replicate (N - 1) 1 ++ [Ls2 - ((N - 1 : ℕ) : ℚ)] := by
    rw [diffs_concat _ _ hsne, hso2, diffs_range_cast, ← hso2, hlast_s]
  rw [hlenN, hdiffs_s]
  rw [show ((List.range N).map (fun j =>
        ((List.replicate (N - 1) P ++ [Bl]).getD j 0, (0 : ℚ), A j))).map
          (fun r => r.1)
      = (List.range N).map (fun j =>
          (List.replicate (N - 1) P ++ [Bl]).getD j 0) from by
    rw [List.map_map]
    rfl]
  rw [map_groupMean_singletons_len ((List.range N).map (fun j =>
      (List.replicate (N - 1) P ++ [Bl]).getD j 0)) N (by simp)]
  rw [map_getD_range_len (List.replicate (N - 1) P ++ [Bl]) N (by
    simp
    omega)]
  rw [show defaultTempoNormalization.rescale_tempo
      (List.replicate (N - 1) P ++ [Bl]) mbp [] = List.replicate (N - 1) P ++ [Bl]
    from rfl]
  rw [zipWith_append_eq _ _ _ _ _ (by simp), zipWith_replicate_same, one_mul,
    show List.zipWith (· * ·) [Ls2 - ((N - 1 : ℕ) : ℚ)] [Bl]
      = [(Ls2 - ((N - 1 : ℕ) : ℚ)) * Bl] from rfl]
  rw [show (0 : ℚ) :: (List.replicate (N - 1) P ++ [(Ls2 - ((N - 1 : ℕ) : ℚ)) * Bl])
      = ((0 : ℚ) :: List.replicate (N - 1) P) ++ [(Ls2 - ((N - 1 : ℕ) : ℚ)) * Bl]
    from rfl]
  rw [cumsum_concat, cumsum_zero_replicate, show N - 1 + 1 = N from by omega]
  rw [assignDecode_singletons N _ _ _ _ exp2]
  have hrows : (List.range N).map (fun j =>
      ((((List.range N).map (fun i : ℕ => P * (i : ℚ))) ++
          [((0 : ℚ) :: List.replicate (N - 1) P).foldl (· + ·) 0
            + (Ls2 - ((N - 1 : ℕ) : ℚ)) * Bl]).getD j 0
        - (((List.range N).map (fun j => ((List.replicate (N - 1) P ++ [Bl]).getD j 0,
            (0 : ℚ), A j))).getD j (0, 0, 0)).2.1,
       exp2 ((((List.range N).map (fun j => ((List.replicate (N - 1) P ++ [Bl]).getD j 0,
            (0 : ℚ), A j))).getD j (0, 0, 0)).2.2)
         * d.getD j 0
         * (List.replicate (N - 1) P ++ [Bl]).getD j 0))
      = (List.range N).map (fun j : ℕ =>
          (P * (j : ℚ),
           exp2 (A j) * d.getD j 0 * (List.replicate (N - 1) P ++ [Bl]).getD j 0)) := by
    refine List.map_congr_left ?_
    intro j hj
    rw [List.mem_range] at hj
    rw [getD_map_range _ N j (0, 0, 0) hj,
      List.getD_append _ _ _ _ (by simp [hj]),
      getD_map_range _ N j 0 hj]
    norm_num
  rw [hrows]
  rw [show (((List.range N).map (fun j : ℕ =>
      (P * (j : ℚ),
       exp2 (A j) * d.getD j 0 * (List.replicate (N - 1) P ++ [Bl]).getD j 0))).map
        Prod.fst)
      = (List.range N).map (fun i : ℕ => P * (i : ℚ)) from by
    rw [List.map_map]
    rfl]
  rw [listMin_map_range_zero P (le_of_lt hP) N (by omega)]
  rw [List.map_map]
  refine congrArg some ?_
  refine List.map_congr_left ?_
  intro j hj
  simp

set_option maxHeartbeats 2000000 in
/-- C1, amended: the round trip is exact for a constant-tempo performance
that STARTS AT TIME 0.  For the synthetic score with onsets `0,…,N-1`
(unit-beat spacing), strictly positive score durations `d`, and the
performance with onsets `P*i` and durations `P*d_i` (beat period held
exactly at `P`, articulation ratio exactly 1), `TimeCodec.encode`
succeeds and `TimeCodec.decode` of its output (same configuration,
returned mean beat period) reproduces every performed onset and every
performed duration exactly, hence within the claimed 1e-4.  `log2` and
`exp2` abstract the transcendental `np.log2` and `2 **` through the
round-trip law on positive arguments.  The claim as stated (any
constant-tempo performance) is false: decode shifts all onsets so their
minimum is 0 (performance_codec.py:733), losing the performance's
absolute start time — see the counterexample below. -/
theorem C1_round_trip (log2 exp2 : ℚ → ℚ) (P : ℚ) (N : ℕ) (d : List ℚ)
    (hN : 2 ≤ N) (hP : 0 < P) (hdlen : d.length = N) (hd : ∀ x ∈ d, 0 < x)
    (hle : ∀ x : ℚ, 0 < x → exp2 (log2 x) = x) :
    ∃ r : EncodeOut,
      TimeCodec.encode defaultTempoNormalization log2
          ((List.range N).map (fun i : ℕ => (i : ℚ))) ((List.range N).map (fun i : ℕ => P * (i : ℚ))) d (d.map (fun x => P * x)) = Except.ok r ∧
      ∃ dec : List (ℚ × ℚ),
        TimeCodec.decode defaultTempoNormalization exp2
            ((List.range N).map (fun i : ℕ => (i : ℚ))) d r.parameters r.mean_beat_period [] = some dec ∧
        dec.length = N ∧
        ∀ i : ℕ, i < N →
          |(dec.getD i (0, 0)).1 - ((List.range N).map (fun i : ℕ => P * (i : ℚ))).getD i 0| ≤ 1/10000 ∧
          |(dec.getD i (0, 0)).2 - (d.map (fun x => P * x)).getD i 0| ≤ 1/10000 := by
  have heps : (0 : ℚ) < eps32 := by norm_num [eps32]
  have hmax_s : ((N - 1 : ℕ) : ℚ) ≤ listMax ((List.range N).map (fun i : ℕ => (i : ℚ))) := by
    have h1 := getD_mem ((List.range N).map (fun i : ℕ => (i : ℚ))) (N - 1) (by simp; omega)
    rw [getD_map_range (fun i : ℕ => (i : ℚ)) N (N - 1) 0 (by omega)] at h1
    exact mem_le_listMax _ _ h1
  have hmax_p : P * ((N - 1 : ℕ) : ℚ) ≤ listMax ((List.range N).map (fun i : ℕ => P * (i : ℚ))) := by
    have h1 := getD_mem ((List.range N).map (fun i : ℕ => P * (i : ℚ))) (N - 1) (by simp; omega)
    rw [getD_map_range (fun i : ℕ => P * (i : ℚ)) N (N - 1) 0 (by omega)] at h1
    exact mem_le_listMax _ _ h1
  have hDS : 0 < (max (listMax ((List.range N).map (fun i : ℕ => (i : ℚ))) + eps32) (listMax (List.zipWith (· + ·) ((List.range N).map (fun i : ℕ => (i : ℚ))) d))) - ((N - 1 : ℕ) : ℚ) := by
    have h1 := le_max_left (listMax ((List.range N).map (fun i : ℕ => (i : ℚ))) + eps32)
      (listMax (List.zipWith (· + ·) ((List.range N).map (fun i : ℕ => (i : ℚ))) d))
    linarith
  have hDP : 0 < (max (listMax ((List.range N).map (fun i : ℕ => P * (i : ℚ))) + eps32) (listMax (List.zipWith (· + ·) ((List.range N).map (fun i : ℕ => P * (i : ℚ))) (d.map (fun x => P * x))))) - P * ((N - 1 : ℕ) : ℚ) := by
    have h1 := le_max_left (listMax ((List.range N).map (fun i : ℕ => P * (i : ℚ))) + eps32)
      (listMax (List.zipWith (· + ·) ((List.range N).map (fun i : ℕ => P * (i : ℚ))) (d.map (fun x => P * x))))
    linarith
  have hBpos : 0 < (((max (listMax ((List.range N).map (fun i : ℕ => P * (i : ℚ))) + eps32) (listMax (List.zipWith (· + ·) ((List.range N).map (fun i : ℕ => P * (i : ℚ))) (d.map (fun x => P * x))))) - P * ((N - 1 : ℕ) : ℚ)) / ((max (listMax ((List.range N).map (fun i : ℕ => (i : ℚ))) + eps32) (listMax (List.zipWith (· + ·) ((List.range N).map (fun i : ℕ => (i : ℚ))) d))) - ((N - 1 : ℕ) : ℚ))) := div_pos hDP hDS
  have hbpi : ∀ i : ℕ, i < N → 0 < (List.replicate (N - 1) P ++ [(((max (listMax ((List.range N).map (fun i : ℕ => P * (i : ℚ))) + eps32) (listMax (List.zipWith (· + ·) ((List.range N).map (fun i : ℕ => P * (i : ℚ))) (d.map (fun x => P * x))))) - P * ((N - 1 : ℕ) : ℚ)) / ((max (listMax ((List.range N).map (fun i : ℕ => (i : ℚ))) + eps32) (listMax (List.zipWith (· + ·) ((List.range N).map (fun i : ℕ => (i : ℚ))) d))) - ((N - 1 : ℕ) : ℚ)))]).getD i 0 := by
    intro i hi
    rw [getD_replicate_concat (N - 1) P (((max (listMax ((List.range N).map (fun i : ℕ => P * (i : ℚ))) + eps32) (listMax (List.zipWith (· + ·) ((List.range N).map (fun i : ℕ => P * (i : ℚ))) (d.map (fun x => P * x))))) - P * ((N - 1 : ℕ) : ℚ)) / ((max (listMax ((List.range N).map (fun i : ℕ => (i : ℚ))) + eps32) (listMax (List.zipWith (· + ·) ((List.range N).map (fun i : ℕ => (i : ℚ))) d))) - ((N - 1 : ℕ) : ℚ))) 0 i (by omega)]
    by_cases hc : i < N - 1
    · rw [if_pos hc]
      exact hP
    · rw [if_neg hc]
      exact hBpos
  have htba := tempo_eval P N d hN hP hdlen
  have hinner := encodeInner_eval log2 P N d (List.replicate (N - 1) P ++ [(((max (listMax ((List.range N).map (fun i : ℕ => P * (i : ℚ))) + eps32) (listMax (List.zipWith (· + ·) ((List.range N).map (fun i : ℕ => P * (i : ℚ))) (d.map (fun x => P * x))))) - P * ((N - 1 : ℕ) : ℚ)) / ((max (listMax ((List.range N).map (fun i : ℕ => (i : ℚ))) + eps32) (listMax (List.zipWith (· + ·) ((List.range N).map (fun i : ℕ => (i : ℚ))) d))) - ((N - 1 : ℕ) : ℚ)))]) hN hdlen
    (by simp; omega) List.dropLast_concat htba
  refine ⟨⟨(List.range N).map (fun j =>
      ((List.replicate (N - 1) P ++ [(((max (listMax ((List.range N).map (fun i : ℕ => P * (i : ℚ))) + eps32) (listMax (List.zipWith (· + ·) ((List.range N).map (fun i : ℕ => P * (i : ℚ))) (d.map (fun x => P * x))))) - P * ((N - 1 : ℕ) : ℚ)) / ((max (listMax ((List.range N).map (fun i : ℕ => (i : ℚ))) + eps32) (listMax (List.zipWith (· + ·) ((List.range N).map (fun i : ℕ => (i : ℚ))) d))) - ((N - 1 : ℕ) : ℚ)))]).getD j 0, (0 : ℚ), log2 ((if d.getD j 0 = 0 then (List.replicate (N - 1) P ++ [(((max (listMax ((List.range N).map (fun i : ℕ => P * (i : ℚ))) + eps32) (listMax (List.zipWith (· + ·) ((List.range N).map (fun i : ℕ => P * (i : ℚ))) (d.map (fun x => P * x))))) - P * ((N - 1 : ℕ) : ℚ)) / ((max (listMax ((List.range N).map (fun i : ℕ => (i : ℚ))) + eps32) (listMax (List.zipWith (· + ·) ((List.range N).map (fun i : ℕ => (i : ℚ))) d))) - ((N - 1 : ℕ) : ℚ)))]).getD j 0 else (d.map (fun x => P * x)).getD j 0) / ((List.replicate (N - 1) P ++ [(((max (listMax ((List.range N).map (fun i : ℕ => P * (i : ℚ))) + eps32) (listMax (List.zipWith (· + ·) ((List.range N).map (fun i : ℕ => P * (i : ℚ))) (d.map (fun x => P * x))))) - P * ((N - 1 : ℕ) : ℚ)) / ((max (listMax ((List.range N).map (fun i : ℕ => (i : ℚ))) + eps32) (listMax (List.zipWith (· + ·) ((List.range N).map (fun i : ℕ => (i : ℚ))) d))) - ((N - 1 : ℕ) : ℚ)))]).getD j 0 * (if d.getD j 0 = 0 then 1 else d.getD j 0))))),
    listMean (List.replicate (N - 1) P ++ [(((max (listMax ((List.range N).map (fun i : ℕ => P * (i : ℚ))) + eps32) (listMax (List.zipWith (· + ·) ((List.range N).map (fun i : ℕ => P * (i : ℚ))) (d.map (fun x => P * x))))) - P * ((N - 1 : ℕ) : ℚ)) / ((max (listMax ((List.range N).map (fun i : ℕ => (i : ℚ))) + eps32) (listMax (List.zipWith (· + ·) ((List.range N).map (fun i : ℕ => (i : ℚ))) d))) - ((N - 1 : ℕ) : ℚ)))]), (List.range N).map (fun i => [i])⟩, ?_, ?_⟩
  · rw [TimeCodec.encode, if_neg (by simp), hinner]
  · have hdec := decode_eval exp2 (fun j => log2 ((if d.getD j 0 = 0 then (List.replicate (N - 1) P ++ [(((max (listMax ((List.range N).map (fun i : ℕ => P * (i : ℚ))) + eps32) (listMax (List.zipWith (· + ·) ((List.range N).map (fun i : ℕ => P * (i : ℚ))) (d.map (fun x => P * x))))) - P * ((N - 1 : ℕ) : ℚ)) / ((max (listMax ((List.range N).map (fun i : ℕ => (i : ℚ))) + eps32) (listMax (List.zipWith (· + ·) ((List.range N).map (fun i : ℕ => (i : ℚ))) d))) - ((N - 1 : ℕ) : ℚ)))]).getD j 0 else (d.map (fun x => P * x)).getD j 0) / ((List.replicate (N - 1) P ++ [(((max (listMax ((List.range N).map (fun i : ℕ => P * (i : ℚ))) + eps32) (listMax (List.zipWith (· + ·) ((List.range N).map (fun i : ℕ => P * (i : ℚ))) (d.map (fun x => P * x))))) - P * ((N - 1 : ℕ) : ℚ)) / ((max (listMax ((List.range N).map (fun i : ℕ => (i : ℚ))) + eps32) (listMax (List.zipWith (· + ·) ((List.range N).map (fun i : ℕ => (i : ℚ))) d))) - ((N - 1 : ℕ) : ℚ)))]).getD j 0 * (if d.getD j 0 = 0 then 1 else d.getD j 0)))) P N d (((max (listMax ((List.range N).map (fun i : ℕ => P * (i : ℚ))) + eps32) (listMax (List.zipWith (· + ·) ((List.range N).map (fun i : ℕ => P * (i : ℚ))) (d.map (fun x => P * x))))) - P * ((N - 1 : ℕ) : ℚ)) / ((max (listMax ((List.range N).map (fun i : ℕ => (i : ℚ))) + eps32) (listMax (List.zipWith (· + ·) ((List.range N).map (fun i : ℕ => (i : ℚ))) d))) - ((N - 1 : ℕ) : ℚ)))
      (listMean (List.replicate (N - 1) P ++ [(((max (listMax ((List.range N).map (fun i : ℕ => P * (i : ℚ))) + eps32) (listMax (List.zipWith (· + ·) ((List.range N).map (fun i : ℕ => P * (i : ℚ))) (d.map (fun x => P * x))))) - P * ((N - 1 : ℕ) : ℚ)) / ((max (listMax ((List.range N).map (fun i : ℕ => (i : ℚ))) + eps32) (listMax (List.zipWith (· + ·) ((List.range N).map (fun i : ℕ => (i : ℚ))) d))) - ((N - 1 : ℕ) : ℚ)))])) hN hP hdlen
    refine ⟨(List.range N).map (fun j : ℕ =>
        (P * (j : ℚ), exp2 (log2 ((if d.getD j 0 = 0 then (List.replicate (N - 1) P ++ [(((max (listMax ((List.range N).map (fun i : ℕ => P * (i : ℚ))) + eps32) (listMax (List.zipWith (· + ·) ((List.range N).map (fun i : ℕ => P * (i : ℚ))) (d.map (fun x => P * x))))) - P * ((N - 1 : ℕ) : ℚ)) / ((max (listMax ((List.range N).map (fun i : ℕ => (i : ℚ))) + eps32) (listMax (List.zipWith (· + ·) ((List.range N).map (fun i : ℕ => (i : ℚ))) d))) - ((N - 1 : ℕ) : ℚ)))]).getD j 0 else (d.map (fun x => P * x)).getD j 0) / ((List.replicate (N - 1) P ++ [(((max (listMax ((List.range N).map (fun i : ℕ => P * (i : ℚ))) + eps32) (listMax (List.zipWith (· + ·) ((List.range N).map (fun i : ℕ => P * (i : ℚ))) (d.map (fun x => P * x))))) - P * ((N - 1 : ℕ) : ℚ)) / ((max (listMax ((List.range N).map (fun i : ℕ => (i : ℚ))) + eps32) (listMax (List.zipWith (· + ·) ((List.range N).map (fun i : ℕ => (i : ℚ))) d))) - ((N - 1 : ℕ) : ℚ)))]).getD j 0 * (if d.getD j 0 = 0 then 1 else d.getD j 0)))) * d.getD j 0 * (List.replicate (N - 1) P ++ [(((max (listMax ((List.range N).map (fun i : ℕ => P * (i : ℚ))) + eps32) (listMax (List.zipWith (· + ·) ((List.range N).map (fun i : ℕ => P * (i : ℚ))) (d.map (fun x => P * x))))) - P * ((N - 1 : ℕ) : ℚ)) / ((max (listMax ((List.range N).map (fun i : ℕ => (i : ℚ))) + eps32) (listMax (List.zipWith (· + ·) ((List.range N).map (fun i : ℕ => (i : ℚ))) d))) - ((N - 1 : ℕ) : ℚ)))]).getD j 0)), hdec, by simp, ?_⟩
    intro i hi
    rw [getD_map_range _ N i (0, 0) hi,
      getD_map_range (fun i : ℕ => P * (i : ℚ)) N i 0 hi,
      getD_map_of_lt d (fun x => P * x) i (by omega)]
    have hdi : 0 < d.getD i 0 := hd _ (getD_mem d i (by omega))
    have hbi := hbpi i hi
    constructor
    · simp
    · have hif1 : (if d.getD i 0 = 0 then (List.replicate (N - 1) P ++ [(((max (listMax ((List.range N).map (fun i : ℕ => P * (i : ℚ))) + eps32) (listMax (List.zipWith (· + ·) ((List.range N).map (fun i : ℕ => P * (i : ℚ))) (d.map (fun x => P * x))))) - P * ((N - 1 : ℕ) : ℚ)) / ((max (listMax ((List.range N).map (fun i : ℕ => (i : ℚ))) + eps32) (listMax (List.zipWith (· + ·) ((List.range N).map (fun i : ℕ => (i : ℚ))) d))) - ((N - 1 : ℕ) : ℚ)))]).getD i 0 else P * d.getD i 0)
          = P * d.getD i 0 := by
        rw [if_neg (ne_of_gt hdi)]
      have hif2 : ((List.replicate (N - 1) P ++ [(((max (listMax ((List.range N).map (fun i : ℕ => P * (i : ℚ))) + eps32) (listMax (List.zipWith (· + ·) ((List.range N).map (fun i : ℕ => P * (i : ℚ))) (d.map (fun x => P * x))))) - P * ((N - 1 : ℕ) : ℚ)) / ((max (listMax ((List.range N).map (fun i : ℕ => (i : ℚ))) + eps32) (listMax (List.zipWith (· + ·) ((List.range N).map (fun i : ℕ => (i : ℚ))) d))) - ((N - 1 : ℕ) : ℚ)))]).getD i 0 * (if d.getD i 0 = 0 then 1 else d.getD i 0))
          = (List.replicate (N - 1) P ++ [(((max (listMax ((List.range N).map (fun i : ℕ => P * (i : ℚ))) + eps32) (listMax (List.zipWith (· + ·) ((List.range N).map (fun i : ℕ => P * (i : ℚ))) (d.map (fun x => P * x))))) - P * ((N - 1 : ℕ) : ℚ)) / ((max (listMax ((List.range N).map (fun i : ℕ => (i : ℚ))) + eps32) (listMax (List.zipWith (· + ·) ((List.range N).map (fun i : ℕ => (i : ℚ))) d))) - ((N - 1 : ℕ) : ℚ)))]).getD i 0 * d.getD i 0 := by
        rw [if_neg (ne_of_gt hdi)]
      rw [hif1, hif2]
      have hx : 0 < P * d.getD i 0 / ((List.replicate (N - 1) P ++ [(((max (listMax ((List.range N).map (fun i : ℕ => P * (i : ℚ))) + eps32) (listMax (List.zipWith (· + ·) ((List.range N).map (fun i : ℕ => P * (i : ℚ))) (d.map (fun x => P * x))))) - P * ((N - 1 : ℕ) : ℚ)) / ((max (listMax ((List.range N).map (fun i : ℕ => (i : ℚ))) + eps32) (listMax (List.zipWith (· + ·) ((List.range N).map (fun i : ℕ => (i : ℚ))) d))) - ((N - 1 : ℕ) : ℚ)))]).getD i 0 * d.getD i 0) :=
        div_pos (mul_pos hP hdi) (mul_pos hbi hdi)
      rw [hle _ hx]
      have hbne : (List.replicate (N - 1) P ++ [(((max (listMax ((List.range N).map (fun i : ℕ => P * (i : ℚ))) + eps32) (listMax (List.zipWith (· + ·) ((List.range N).map (fun i : ℕ => P * (i : ℚ))) (d.map (fun x => P * x))))) - P * ((N - 1 : ℕ) : ℚ)) / ((max (listMax ((List.range N).map (fun i : ℕ => (i : ℚ))) + eps32) (listMax (List.zipWith (· + ·) ((List.range N).map (fun i : ℕ => (i : ℚ))) d))) - ((N - 1 : ℕ) : ℚ)))]).getD i 0 ≠ 0 := ne_of_gt hbi
      have hdne : d.getD i 0 ≠ 0 := ne_of_gt hdi
      rw [show P * d.getD i 0 / ((List.replicate (N - 1) P ++ [(((max (listMax ((List.range N).map (fun i : ℕ => P * (i : ℚ))) + eps32) (listMax (List.zipWith (· + ·) ((List.range N).map (fun i : ℕ => P * (i : ℚ))) (d.map (fun x => P * x))))) - P * ((N - 1 : ℕ) : ℚ)) / ((max (listMax ((List.range N).map (fun i : ℕ => (i : ℚ))) + eps32) (listMax (List.zipWith (· + ·) ((List.range N).map (fun i : ℕ => (i : ℚ))) d))) - ((N - 1 : ℕ) : ℚ)))]).getD i 0 * d.getD i 0) * d.getD i 0
            * (List.replicate (N - 1) P ++ [(((max (listMax ((List.range N).map (fun i : ℕ => P * (i : ℚ))) + eps32) (listMax (List.zipWith (· + ·) ((List.range N).map (fun i : ℕ => P * (i : ℚ))) (d.map (fun x => P * x))))) - P * ((N - 1 : ℕ) : ℚ)) / ((max (listMax ((List.range N).map (fun i : ℕ => (i : ℚ))) + eps32) (listMax (List.zipWith (· + ·) ((List.range N).map (fun i : ℕ => (i : ℚ))) d))) - ((N - 1 : ℕ) : ℚ)))]).getD i 0 = P * d.getD i 0 from by
        rw [div_mul_eq_mul_div, div_mul_eq_mul_div, mul_assoc,
          mul_comm (d.getD i 0) ((List.replicate (N - 1) P ++ [(((max (listMax ((List.range N).map (fun i : ℕ => P * (i : ℚ))) + eps32) (listMax (List.zipWith (· + ·) ((List.range N).map (fun i : ℕ => P * (i : ℚ))) (d.map (fun x => P * x))))) - P * ((N - 1 : ℕ) : ℚ)) / ((max (listMax ((List.range N).map (fun i : ℕ => (i : ℚ))) + eps32) (listMax (List.zipWith (· + ·) ((List.range N).map (fun i : ℕ => (i : ℚ))) d))) - ((N - 1 : ℕ) : ℚ)))]).getD i 0), mul_div_assoc,
          div_self (mul_ne_zero hbne hdne), mul_one]]
      simp

theorem C1x_hgu : get_unique_onset_idxs [(0 : ℚ), 10000] (1/1000000) = [[0], [1]] := by
  norm_num [get_unique_onset_idxs, argsort, idxLe, List.insertionSort,
    List.orderedInsert, splitRuns]

theorem C1x_hgu2 : get_unique_onset_idxs [(0 : ℚ), 1] (1/1000000) = [[0], [1]] := by
  norm_num [get_unique_onset_idxs, argsort, idxLe, List.insertionSort,
    List.orderedInsert, splitRuns]

theorem C1x_hs : get_unique_seq [(0 : ℚ), 1]
    (List.zipWith (· + ·) [(0 : ℚ), 1] [1, 1]) (some [[0], [1]])
    = some ⟨[0, 1, 2], 2, [[0], [1]], [1, 1]⟩ := by
  norm_num [get_unique_seq, groupMean, listMax, listMin, eps32, diffs, max_def]

theorem C1x_hp : get_unique_seq [(5 : ℚ), 11/2]
    (List.zipWith (· + ·) [(5 : ℚ), 11/2] [1/2, 1/2]) (some [[0], [1]])
    = some ⟨[5, 11/2, 6], 1, [[0], [1]], [1/2, 1/2]⟩ := by
  norm_num [get_unique_seq, groupMean, listMax, listMin, eps32, diffs, max_def]

theorem C1x_hmono : monotonize_times [(5 : ℚ), 11/2, 6] true [0, 1, 2]
    = ([5, 11/2, 6], [0, 1, 2]) :=
  monotonize_times_id _ _ rfl (by norm_num [List.chain'_cons])
    (by norm_num [List.chain'_cons]) (by simp)

theorem C1x_htba : tempo_by_average [(0 : ℚ), 1] [5, 11/2] [1, 1] [1/2, 1/2] none
    = some ([1/2, 1/2], [0, 1], [[0], [1]]) := by
  rw [tempo_by_average]
  simp only [Option.getD_none]
  rw [show ([0, 1] : List ℚ).map (fun x => ((truncQ (10000 * x) : ℤ) : ℚ))
      = [0, 10000] from by norm_num [truncQ]]
  rw [C1x_hgu, C1x_hs, C1x_hp]
  simp only [Option.pure_def, Option.bind_eq_bind, Option.some_bind]
  rw [C1x_hmono]
  norm_num [diffs, interp1d, interpSeg, List.insertionSort, List.orderedInsert]

theorem C1x_henc : TimeCodec.encode defaultTempoNormalization (fun x => x - 1)
    [(0 : ℚ), 1] [5, 11/2] [1, 1] [1/2, 1/2]
    = Except.ok ⟨[(1/2, 0, 0), (1/2, 0, 0)], 1/2, [[0], [1]]⟩ := by
  rw [TimeCodec.encode, if_neg (by norm_num), TimeCodec.encodeInner, C1x_htba]
  simp only [Option.pure_def, Option.bind_eq_bind, Option.some_bind]
  norm_num [cumsum, groupMean, encode_articulation, assignTimeParams,
    defaultTempoNormalization, List.scanl, diffs, listMean,
    show List.range 2 = [0, 1] from rfl, List.foldl_cons, List.foldl_nil,
    List.set_cons_zero, List.set_cons_succ, List.replicate,
    List.getD_cons_zero, List.getD_cons_succ]

theorem C1x_hsi : get_unique_seq [(0 : ℚ), 1]
    (List.zipWith (· + ·) [(0 : ℚ), 1] [1, 1]) none
    = some ⟨[0, 1, 2], 2, [[0], [1]], [1, 1]⟩ := by
  rw [get_unique_seq]
  norm_num [C1x_hgu2, groupMean, listMax, listMin, eps32, diffs, max_def]

theorem C1x_hdec : TimeCodec.decode defaultTempoNormalization (fun x => x + 1)
    [(0 : ℚ), 1] [1, 1] [(1/2, 0, 0), (1/2, 0, 0)] (1/2) []
    = some [(0, 1/2), (1/2, 1/2)] := by
  rw [TimeCodec.decode, C1x_hsi]
  simp only [Option.pure_def, Option.bind_eq_bind, Option.some_bind]
  norm_num [defaultTempoNormalization, groupMean, cumsum, assignDecode,
    listMin, min_def, diffs, List.scanl,
    show List.range 2 = [0, 1] from rfl, List.replicate,
    List.getD_cons_zero, List.getD_cons_succ,
    List.foldl_cons, List.foldl_nil, List.set_cons_zero, List.set_cons_succ]

/-- Counterexample to C1 as stated: the same synthetic scenario but with
the performance starting at time 5 (N = 2, beat period 1/2, articulation
ratio 1; performed onsets `[5, 11/2]`).  Encode and decode both succeed,
but the decoded first onset is 0, not 5: `TimeCodec.decode` subtracts
the minimum onset (performance_codec.py:733), so the round trip misses
the first performed onset by 5 > 1e-4 (durations are still exact). -/
theorem C1_round_trip_cex :
    TimeCodec.encode defaultTempoNormalization (fun x => x - 1)
        [(0 : ℚ), 1] [5, 11/2] [1, 1] [1/2, 1/2]
      = Except.ok ⟨[(1/2, 0, 0), (1/2, 0, 0)], 1/2, [[0], [1]]⟩ ∧
    TimeCodec.decode defaultTempoNormalization (fun x => x + 1)
        [(0 : ℚ), 1] [1, 1] [(1/2, 0, 0), (1/2, 0, 0)] (1/2) []
      = some [(0, 1/2), (1/2, 1/2)] ∧
    ¬ |((([((0 : ℚ), (1/2 : ℚ)), (1/2, 1/2)] : List (ℚ × ℚ)).getD 0 (0, 0)).1 - 5)|
        ≤ 1/10000 :=
  ⟨C1x_henc, C1x_hdec, by norm_num⟩

/-- Witness for C1 at N = 2, P = 1/2, d = [1, 1], with log2 and exp2
instantiated by x - 1 and x + 1 (which satisfy the round-trip law):
every hypothesis holds and the round trip reproduces the performance. -/
theorem C1_round_trip_witness :
    ((2 ≤ 2 ∧ (0 : ℚ) < 1/2 ∧ ([(1 : ℚ), 1] : List ℚ).length = 2) ∧
      ∀ x ∈ ([(1 : ℚ), 1] : List ℚ), 0 < x) ∧
    (∃ r : EncodeOut,
      TimeCodec.encode defaultTempoNormalization (fun x => x - 1)
          ((List.range 2).map (fun i : ℕ => (i : ℚ)))
          ((List.range 2).map (fun i : ℕ => (1/2 : ℚ) * (i : ℚ)))
          [1, 1] (([(1 : ℚ), 1] : List ℚ).map (fun x => (1/2 : ℚ) * x))
        = Except.ok r ∧
      ∃ dec : List (ℚ × ℚ),
        TimeCodec.decode defaultTempoNormalization (fun x => x + 1)
            ((List.range 2).map (fun i : ℕ => (i : ℚ))) [1, 1]
            r.parameters r.mean_beat_period [] = some dec ∧
        dec.length = 2 ∧
        ∀ i : ℕ, i < 2 →
          |(dec.getD i (0, 0)).1
            - ((List.range 2).map (fun i : ℕ => (1/2 : ℚ) * (i : ℚ))).getD i 0|
            ≤ 1/10000 ∧
          |(dec.getD i (0, 0)).2
            - (([(1 : ℚ), 1] : List ℚ).map (fun x => (1/2 : ℚ) * x)).getD i 0|
            ≤ 1/10000) :=
  ⟨⟨⟨by norm_num, by norm_num, rfl⟩, by norm_num⟩,
   C1_round_trip (fun x => x - 1) (fun x => x + 1) (1/2) 2 [1, 1]
     (by norm_num) (by norm_num) rfl (by norm_num) (fun x hx => by ring)⟩
